import Mathlib

/-!
Verification of the two factoring engines of the rust-factor repository:
the Pollard rho / Brent engine (factorizer_pollard.rs) and the Dixon
congruence engine with its GF(2) bit-matrix backend (factorizer_dixon.rs).

The Rust code is shallowly embedded: machine integers are modelled as Nat
(the code is generic over unsigned arbitrary-precision integers), loops are
modelled as fueled structural recursion returning Option (none = fuel ran
out; every some result agrees with a terminating run of the Rust loops),
and the random choices made by the engines (start value y, constant c,
batch size m, sampled a values) are explicit parameters.
-/

namespace RustFactor

/-- Modelled from the spec: `util::gcd` (not under src/) is the standard
Euclidean GCD used throughout both engines. -/
def gcd (a b : Nat) : Nat := Nat.gcd a b

/-- Modelled from the spec: `util::isqrt` (not under src/) is the integer
square root used as the lower sampling bound in Dixon. -/
def isqrt (x : Nat) : Nat := Nat.sqrt x

/-! ## Pollard-Brent engine (factorizer_pollard.rs) -/

/-- `next_in_sequence` from factorizer_pollard.rs: computes `(y*y + c) % x`
with the same intermediate reductions as the source. -/
def next_in_sequence (y x c : Nat) : Nat := ((y * y) % x + c) % x

/-- The mutable locals of the coarse-grained search loop of `get_factor`. -/
structure PBState where
  y : Nat
  q : Nat
  g : Nat
  y_prev : Nat
deriving DecidableEq, Repr

/-- The loop `for _ in range(0, r) { y = next_in_sequence(y, x, c) }`. -/
def pb_advance (x c : Nat) : Nat → Nat → Nat
  | 0, y => y
  | n + 1, y => pb_advance x c n (next_in_sequence y x c)

/-- The inner batch loop of `get_factor`: advances `y` by `n` steps,
accumulating `q = q * ((x + z - y) % x) ... % x` exactly as the source
(`q = q * (x + z - y); q = q % x;` with the updated `y`). -/
def pb_batch (x c z : Nat) : Nat → Nat → Nat → Nat × Nat
  | 0, y, q => (y, q)
  | n + 1, y, q =>
      let y2 := next_in_sequence y x c
      pb_batch x c z n y2 (q * (x + z - y2) % x)

/-- The loop `while k < r && g == 1` of `get_factor`: each pass saves
`y_prev = y`, runs a batch of `min(m, r - k)` steps, recomputes
`g = gcd(x, q)` and advances `k` by `m`.  Fuel bounds the number of
checks of the loop condition. -/
def pb_inner (x c m z r : Nat) : Nat → Nat → PBState → Option PBState
  | 0, _, _ => none
  | fuel + 1, k, s =>
      if k < r ∧ s.g = 1 then
        pb_inner x c m z r fuel (k + m)
          ⟨(pb_batch x c z (min m (r - k)) s.y s.q).1,
           (pb_batch x c z (min m (r - k)) s.y s.q).2,
           gcd x (pb_batch x c z (min m (r - k)) s.y s.q).2,
           s.y⟩
      else some s

/-- The coarse-grained search `while g == 1` of `get_factor`: saves the
checkpoint `z = y`, advances `y` by `r` steps, runs the inner loop from
`k = 0`, then doubles `r`.  Returns the final state together with the
final checkpoint `z`. -/
def pb_outer (x c m : Nat) : Nat → Nat → PBState → Nat → Option (PBState × Nat)
  | 0, _, _, _ => none
  | fuel + 1, r, s, z =>
      if s.g = 1 then
        match pb_inner x c m s.y r (r + 1) 0
            ⟨pb_advance x c r s.y, s.q, s.g, s.y_prev⟩ with
        | none => none
        | some s2 => pb_outer x c m fuel (r * 2) s2 s.y
      else some (s, z)

/-- The fine-grained fallback search of `get_factor` (entered when the
coarse search ended with `g == x`): starting from `y_prev`, steps `y` one
application at a time and recomputes `g = gcd(x, x + z - y)` until
`g > 1`. -/
def pb_fine (x c z : Nat) : Nat → Nat → Option Nat
  | 0, _ => none
  | fuel + 1, y =>
      if 1 < gcd x (x + z - next_in_sequence y x c) then
        some (gcd x (x + z - next_in_sequence y x c))
      else pb_fine x c z fuel (next_in_sequence y x c)

/-- `PollardBrentFactorizer::get_factor` from factorizer_pollard.rs, with
the random draws `y`, `c`, `m` passed explicitly.  The fast paths test, in
source order: `x.is_even()`, `x.is_multiple_of(3)`, `x < 2`. -/
def pollard_get_factor (x y c m fuel : Nat) : Option Nat :=
  if x % 2 = 0 then some 2
  else if x % 3 = 0 then some 3
  else if x < 2 then some x
  else
    match pb_outer x c m fuel 1 ⟨y, 1, 1, 0⟩ 0 with
    | none => none
    | some sz =>
        if sz.1.g = x then pb_fine x c sz.2 fuel sz.1.y_prev
        else some sz.1.g

/-! ## The Factorization value type (spec-modelled) and factorize_limited -/

/-- Modelled from the spec: the generic `Factorization` value type
(factorization.rs is not under src/) is a sparse mapping from prime to
non-negative exponent with unique keys, supporting multiplication
(exponent-wise addition), square root (fails unless every exponent is
even, otherwise halves each exponent), integer product reconstruction,
`get` (exponent lookup, zero when absent) and `set`.  It is represented
here as an association list of (prime, exponent) pairs. -/
structure Factorization where
  entries : List (Nat × Nat)
deriving DecidableEq, Repr

/-- Modelled from the spec: `One::one()` for Factorization is the empty
factorization (the multiplicative identity). -/
def Factorization.one : Factorization := ⟨[]⟩

/-- Whether the mapping has an entry for key `p`. -/
def Factorization.hasKey (f : Factorization) (p : Nat) : Bool :=
  f.entries.any (fun q => q.1 == p)

/-- Modelled from the spec: exponent lookup, `0` when the key is absent. -/
def Factorization.get (f : Factorization) (p : Nat) : Nat :=
  ((f.entries.find? (fun q => q.1 == p)).map (fun q => q.2)).getD 0

/-- Modelled from the spec: `set` records the exponent of `p`, overwriting
an existing entry (unique keys). -/
def Factorization.set (f : Factorization) (p k : Nat) : Factorization :=
  if f.hasKey p then ⟨f.entries.map (fun q => if q.1 == p then (p, k) else q)⟩
  else ⟨f.entries ++ [(p, k)]⟩

/-- Modelled from the spec: multiplication is exponent-wise addition. -/
def Factorization.mul (f g : Factorization) : Factorization :=
  ⟨f.entries.map (fun q => (q.1, q.2 + g.get q.1)) ++
    g.entries.filter (fun q => ! f.hasKey q.1)⟩

/-- Modelled from the spec: reconstructs the integer value. -/
def Factorization.product (f : Factorization) : Nat :=
  (f.entries.map (fun q => q.1 ^ q.2)).prod

/-- Modelled from the spec: square root fails unless every exponent is
even; otherwise it halves each exponent. -/
def Factorization.sqrt (f : Factorization) : Option Factorization :=
  if f.entries.all (fun q => q.2 % 2 == 0) then
    some ⟨f.entries.map (fun q => (q.1, q.2 / 2))⟩
  else none

/-- The keys of the mapping. -/
def Factorization.keys (f : Factorization) : List Nat :=
  f.entries.map (fun q => q.1)

/-- Well-formedness: the mapping has unique keys (as the spec requires). -/
def Factorization.KeysNodup (f : Factorization) : Prop := f.keys.Nodup

/-- The loop `while c.is_multiple_of(p) { c = c / p; count += 1 }` from
`factorize_limited`, fueled (the extra `c ≠ 0 ∧ 2 ≤ p` conjuncts are the
termination guard; they hold throughout every run the Rust loop
terminates on, since `factorize_limited` asserts `x ≠ 0` and the base
consists of primes).  Returns (count, remaining value). -/
def divide_out_go (p : Nat) : Nat → Nat → Nat × Nat
  | 0, c => (0, c)
  | fuel + 1, c =>
      if c % p = 0 ∧ c ≠ 0 ∧ 2 ≤ p then
        ((divide_out_go p fuel (c / p)).1 + 1, (divide_out_go p fuel (c / p)).2)
      else (0, c)

/-- Divides `p` out of `c` as often as possible; fuel `c` always
suffices because each division at least halves `c`. -/
def divide_out (p c : Nat) : Nat × Nat := divide_out_go p c c

/-- One step of the per-prime loop of `factorize_limited`: divide the
current prime out of the running value and record the exponent. -/
def fl_step (fc : Factorization × Nat) (p : Nat) : Factorization × Nat :=
  (fc.1.set p (divide_out p fc.2).1, (divide_out p fc.2).2)

/-- The whole per-prime loop of `factorize_limited`. -/
def fl_fold (x : Nat) (primes : List Nat) : Factorization × Nat :=
  primes.foldl fl_step (Factorization.one, x)

/-- `factorize_limited` from factorizer_dixon.rs: only returns a
factorization if it can be constructed exclusively from the given primes
(the fully divided remainder must equal 1). -/
def factorize_limited (x : Nat) (primes : List Nat) : Option Factorization :=
  if (fl_fold x primes).2 = 1 then some (fl_fold x primes).1 else none

/-- Outcome of one sampling attempt in Step 1 of Dixon `get_factor`. -/
inductive AttemptResult where
  | found (g : Nat)
  | congruence (f : Factorization)
  | failed
deriving DecidableEq, Repr

/-- The body of one sampling attempt of Dixon `get_factor` for a sampled
`a`: compute `b = a*a % x`; if `b == 0` return `gcd(a, x)` immediately,
otherwise try to smooth-factor `b` over the prime base. -/
def dixon_attempt (x : Nat) (primes : List Nat) (a : Nat) : AttemptResult :=
  if a * a % x = 0 then .found (gcd a x)
  else
    match factorize_limited (a * a % x) primes with
    | some f => .congruence f
    | none => .failed

/-! ## The Dixon bit matrix (factorizer_dixon.rs) -/

/-- `DixonBitvec` from factorizer_dixon.rs: `elements` holds the power of
each prime modulo 2 and `indices` indicates which rows have been xored to
make this row.  Rust `BitSet`s are modelled as `Finset Nat`. -/
structure DixonBitvec where
  elements : Finset Nat
  indices : Finset Nat
deriving DecidableEq

/-- The default row used for out-of-range accesses (the Rust code panics
there; all verified paths stay in range). -/
def emptyRow : DixonBitvec := ⟨∅, ∅⟩

/-- `is_all_zero` from factorizer_dixon.rs: `self.elements.is_empty()`. -/
def DixonBitvec.is_all_zero (v : DixonBitvec) : Bool := v.elements = ∅

/-- `DixonBitmatrix` from factorizer_dixon.rs. -/
structure DixonBitmatrix where
  rows : List DixonBitvec
  width : Nat
deriving DecidableEq

/-- Matrix dimension `nrows`. -/
def DixonBitmatrix.nrows (m : DixonBitmatrix) : Nat := m.rows.length

/-- Matrix dimension `ncols`. -/
def DixonBitmatrix.ncols (m : DixonBitmatrix) : Nat := m.width

/-- Row access. -/
def DixonBitmatrix.rowAt (m : DixonBitmatrix) (r : Nat) : DixonBitvec :=
  m.rows.getD r emptyRow

/-- `get_elem` from factorizer_dixon.rs:
`self.rows[row].elements.contains(&col)`. -/
def DixonBitmatrix.get_elem (m : DixonBitmatrix) (row col : Nat) : Bool :=
  col ∈ (m.rowAt row).elements

/-- `swap_rows` from factorizer_dixon.rs: exchanges rows `i` and `j`
(both read before either is written). -/
def DixonBitmatrix.swap_rows (m : DixonBitmatrix) (i j : Nat) : DixonBitmatrix :=
  ⟨(m.rows.set i (m.rowAt j)).set j (m.rowAt i), m.width⟩

/-- `xor_update_row` from factorizer_dixon.rs: xors row `src` into row
`dest` (both the `elements` and the `indices` bit sets), overwriting
`dest`; the source row is cloned before the update. -/
def DixonBitmatrix.xor_update_row (m : DixonBitmatrix) (src dest : Nat) :
    DixonBitmatrix :=
  ⟨m.rows.set dest
      ⟨symmDiff (m.rowAt dest).elements (m.rowAt src).elements,
       symmDiff (m.rowAt dest).indices (m.rowAt src).indices⟩,
   m.width⟩

/-- The elements bit set a row starts with in
`bit_matrix_from_factorizations`: the set of base columns whose prime has
odd exponent, `(0..primes.len()).filter(|i| fact.get(&primes[i]) % 2 == 1)`. -/
def initElements (primes : List Nat) (f : Factorization) : Finset Nat :=
  (Finset.range primes.length).filter (fun c => f.get (primes.getD c 0) % 2 = 1)

/-- `bit_matrix_from_factorizations` from factorizer_dixon.rs: one row per
factorization, `elements` the odd-exponent columns, `indices` the
singleton of the row index. -/
def bit_matrix_from_factorizations (facts : List Factorization)
    (primes : List Nat) : DixonBitmatrix :=
  ⟨facts.enum.map (fun ri => ⟨initElements primes ri.2, {ri.1}⟩), primes.length⟩

/-- The search `for source_row in (target_row..nrows) { if get_elem .. }`
of `bit_matrix_to_ref`: first row at or after `row` with a 1 in `col`.
Fueled by `nrows - row`, which is exact. -/
def find_pivot_go (m : DixonBitmatrix) (col : Nat) : Nat → Nat → Option Nat
  | 0, _ => none
  | fuel + 1, row =>
      if row < m.nrows then
        if m.get_elem row col then some row else find_pivot_go m col fuel (row + 1)
      else none

/-- First row at or after `row` with a 1 in column `col`. -/
def find_pivot (m : DixonBitmatrix) (col row : Nat) : Option Nat :=
  find_pivot_go m col (m.nrows - row) row

/-- One elimination step of `bit_matrix_to_ref`:
`if get_elem(other_row, col) { xor_update_row(target_row, other_row) }`. -/
def elim_step (target col : Nat) (m : DixonBitmatrix) (other : Nat) :
    DixonBitmatrix :=
  if m.get_elem other col then m.xor_update_row target other else m

/-- Processing of one column of `bit_matrix_to_ref`: find the pivot row,
swap it into the target position, eliminate the 1s below the found
position, and advance the target row counter. -/
def process_col (mt : DixonBitmatrix × Nat) (col : Nat) : DixonBitmatrix × Nat :=
  match find_pivot mt.1 col mt.2 with
  | none => mt
  | some src =>
      ((List.range' (src + 1) (mt.1.nrows - (src + 1))).foldl
          (elim_step mt.2 col) (mt.1.swap_rows src mt.2),
       mt.2 + 1)

/-- `bit_matrix_to_ref` from factorizer_dixon.rs: Gaussian elimination to
row echelon form over GF(2), columns processed left to right. -/
def bit_matrix_to_ref (m : DixonBitmatrix) : DixonBitmatrix :=
  ((List.range m.ncols).foldl process_col (m, 0)).1

/-- An arbitrary row operation on the bit matrix (the only mutations the
matrix ever undergoes). -/
inductive MatrixOp where
  | swap (i j : Nat)
  | xorRow (src dest : Nat)

/-- Apply one row operation. -/
def applyOp (m : DixonBitmatrix) : MatrixOp → DixonBitmatrix
  | .swap i j => m.swap_rows i j
  | .xorRow src dest => m.xor_update_row src dest

/-- Apply a sequence of row operations. -/
def applyOps (m : DixonBitmatrix) (ops : List MatrixOp) : DixonBitmatrix :=
  ops.foldl applyOp m

/-- The symmetric difference on `Finset Nat` as a named operation (so
that the commutative/associative instances needed by `Finset.fold`
resolve). -/
def finsetXor (a b : Finset Nat) : Finset Nat := symmDiff a b

instance : Std.Commutative finsetXor := ⟨fun a b => symmDiff_comm a b⟩

instance : Std.Associative finsetXor := ⟨fun a b c => symmDiff_assoc a b c⟩

/-- The GF(2) sum (iterated symmetric difference) of the initial elements
of the rows named in an index set. -/
def xorFold (init : Nat → Finset Nat) (S : Finset Nat) : Finset Nat :=
  S.fold finsetXor ∅ init

/-- The per-row bookkeeping invariant of the bit matrix: the `elements`
bit set equals the GF(2) sum of the initial elements of the rows named in
the `indices` bit set. -/
def RowInv (init : Nat → Finset Nat) (v : DixonBitvec) : Prop :=
  v.elements = xorFold init v.indices

/-- The bookkeeping invariant for every row of the matrix. -/
def AllRowsInv (init : Nat → Finset Nat) (m : DixonBitmatrix) : Prop :=
  ∀ v ∈ m.rows, RowInv init v

/-- The initial elements of row `i` of the matrix built from `facts`. -/
def rowInit (facts : List Factorization) (primes : List Nat) (i : Nat) :
    Finset Nat :=
  initElements primes (facts.getD i Factorization.one)

/-- Well-formedness of a bit matrix: every row's elements lie in the
column range (true of every matrix `bit_matrix_from_factorizations`
builds, and preserved by all row operations). -/
def ElemsWF (m : DixonBitmatrix) : Prop :=
  ∀ r, (m.rowAt r).elements ⊆ Finset.range m.width

/-- The loop invariant of `bit_matrix_to_ref` after processing the
columns before `col` with the pivot counter at `t`: rows at or below `t`
are zero in all processed columns, and every settled row `r < t` has a
leading 1 in a processed column, with everything at or left of it zero in
all later rows. -/
def EchelonInv (m : DixonBitmatrix) (t col : Nat) : Prop :=
  t ≤ m.nrows ∧
  (∀ r c, t ≤ r → r < m.nrows → c < col → c ∉ (m.rowAt r).elements) ∧
  (∀ r, r < t → ∃ L, L < col ∧ L ∈ (m.rowAt r).elements ∧
      (∀ c, c < L → c ∉ (m.rowAt r).elements) ∧
      (∀ r2 c, r < r2 → r2 < m.nrows → c ≤ L → c ∉ (m.rowAt r2).elements))

/-- The reconstruction `a_prod = prod of a_values[i]` over an index set,
iterating in ascending index order as a Rust `BitSet` does. -/
def dixon_a_prod (avals : List Nat) (S : Finset Nat) : Nat :=
  (S.sort (· ≤ ·)).foldl (fun acc i => acc * avals.getD i 1) 1

/-- The reconstruction `b_prod_factors = prod of b_factorizations[i]` over
an index set, in ascending index order. -/
def dixon_b_prod (bfacts : List Factorization) (S : Finset Nat) : Factorization :=
  (S.sort (· ≤ ·)).foldl
    (fun acc i => acc.mul (bfacts.getD i Factorization.one)) Factorization.one

/-- The factor candidate Step 2 of Dixon `get_factor` computes from an
all-zero row with index set `S`:
`gcd(a_prod - b_prodsqrt, x)` (`0` stands for the unreachable
`sqrt().unwrap()` panic). -/
def dixon_candidate (x : Nat) (avals : List Nat) (bfacts : List Factorization)
    (S : Finset Nat) : Nat :=
  match (dixon_b_prod bfacts S).sqrt with
  | some sf => gcd (dixon_a_prod avals S - sf.product) x
  | none => 0

/-- `DixonBitvec::from_vecs` (test helper from factorizer_dixon.rs). -/
def from_vecs (elems ids : List Nat) : DixonBitvec := ⟨elems.toFinset, ids.toFinset⟩

/-- `gen_test_matrix` from the factorizer_dixon.rs tests. -/
def gen_test_matrix : DixonBitmatrix :=
  ⟨[from_vecs [0] [0],
    from_vecs [0, 1, 2] [1],
    from_vecs [0, 1, 2] [2],
    from_vecs [0, 1, 3] [3],
    from_vecs [0] [4]], 4⟩

/-! ## Theorems about the Pollard-Brent engine -/

theorem next_in_sequence_lt (y x c : Nat) (hx : 0 < x) : next_in_sequence y x c < x :=
  Nat.mod_lt _ hx

theorem pb_advance_lt (x c : Nat) (hx : 0 < x) :
    ∀ n y, y < x → pb_advance x c n y < x := by
  intro n
  induction n with
  | zero => intro y hy; exact hy
  | succ n ih => intro y _; exact ih _ (next_in_sequence_lt y x c hx)

theorem pb_batch_fst_lt (x c z : Nat) (hx : 0 < x) :
    ∀ n y q, y < x → (pb_batch x c z n y q).1 < x := by
  intro n
  induction n with
  | zero => intro y q hy; exact hy
  | succ n ih => intro y q _; exact ih _ _ (next_in_sequence_lt y x c hx)

theorem pb_inner_bounds (x c m z r : Nat) (hx : 0 < x) :
    ∀ fuel k s s2, pb_inner x c m z r fuel k s = some s2 →
      s.y < x → s.y_prev < x → s2.y < x ∧ s2.y_prev < x := by
  intro fuel
  induction fuel with
  | zero => intro k s s2 h; simp [pb_inner] at h
  | succ fuel ih =>
      intro k s s2 h hy hp
      rw [pb_inner] at h
      split at h
      · exact ih _ _ _ h (pb_batch_fst_lt x c z hx _ _ _ hy) hy
      · cases h; exact ⟨hy, hp⟩

theorem pb_outer_bounds (x c m : Nat) (hx : 0 < x) :
    ∀ fuel r s z s2 z2, pb_outer x c m fuel r s z = some (s2, z2) →
      s.y < x → s.y_prev < x → z < x → s2.y < x ∧ z2 < x ∧ s2.y_prev < x := by
  intro fuel
  induction fuel with
  | zero => intro r s z s2 z2 h; simp [pb_outer] at h
  | succ fuel ih =>
      intro r s z s2 z2 h hy hp hz
      rw [pb_outer] at h
      split at h
      · split at h
        · exact Option.noConfusion h
        · rename_i s1 hinner
          have hb := pb_inner_bounds x c m s.y r hx _ _ _ _ hinner
            (pb_advance_lt x c hx r s.y hy) hp
          exact ih _ _ _ _ _ h hb.1 hb.2 hy
      · cases h; exact ⟨hy, hz, hp⟩

theorem pb_inner_g_dvd (x c m z r : Nat) :
    ∀ fuel k s s2, pb_inner x c m z r fuel k s = some s2 →
      s.g ∣ x → s2.g ∣ x := by
  intro fuel
  induction fuel with
  | zero => intro k s s2 h; simp [pb_inner] at h
  | succ fuel ih =>
      intro k s s2 h hg
      rw [pb_inner] at h
      split at h
      · exact ih _ _ _ h (Nat.gcd_dvd_left _ _)
      · cases h; exact hg

theorem pb_outer_g (x c m : Nat) :
    ∀ fuel r s z s2 z2, pb_outer x c m fuel r s z = some (s2, z2) →
      s.g ∣ x → s2.g ∣ x ∧ s2.g ≠ 1 := by
  intro fuel
  induction fuel with
  | zero => intro r s z s2 z2 h; simp [pb_outer] at h
  | succ fuel ih =>
      intro r s z s2 z2 h hg
      rw [pb_outer] at h
      split at h
      · split at h
        · exact Option.noConfusion h
        · rename_i s1 hinner
          exact ih _ _ _ _ _ h (pb_inner_g_dvd x c m s.y r _ _ _ _ hinner hg)
      · rename_i hne; cases h; exact ⟨hg, hne⟩

theorem pb_fine_g (x c z : Nat) :
    ∀ fuel y g, pb_fine x c z fuel y = some g → g ∣ x ∧ 1 < g := by
  intro fuel
  induction fuel with
  | zero => intro y g h; simp [pb_fine] at h
  | succ fuel ih =>
      intro y g h
      rw [pb_fine] at h
      split at h
      · rename_i hgt; cases h; exact ⟨Nat.gcd_dvd_left _ _, hgt⟩
      · exact ih _ _ h

/-- C1 (amended): for every `x ≥ 2` and every sequence of random choices,
whenever `PollardBrentFactorizer::get_factor(x)` terminates it returns a
divisor `g` of `x` with `1 < g ≤ x`.  The returned value can equal `x`
itself (see the counterexample below), so it is not always a nontrivial
divisor. -/
theorem pollard_get_factor_divides (x y c m fuel g : Nat) (hx : 2 ≤ x)
    (h : pollard_get_factor x y c m fuel = some g) : g ∣ x ∧ 1 < g ∧ g ≤ x := by
  unfold pollard_get_factor at h
  split_ifs at h with h2 h3 h4
  · cases h
    exact ⟨Nat.dvd_of_mod_eq_zero h2, by omega,
      Nat.le_of_dvd (by omega) (Nat.dvd_of_mod_eq_zero h2)⟩
  · cases h
    exact ⟨Nat.dvd_of_mod_eq_zero h3, by omega,
      Nat.le_of_dvd (by omega) (Nat.dvd_of_mod_eq_zero h3)⟩
  · omega
  · split at h
    · exact Option.noConfusion h
    · rename_i sz houter
      have hout := pb_outer_g x c m fuel 1 ⟨y, 1, 1, 0⟩ 0 sz.1 sz.2
        (by rw [houter]) (one_dvd x)
      split at h
      · have hfine := pb_fine_g x c sz.2 fuel sz.1.y_prev g h
        exact ⟨hfine.1, hfine.2, Nat.le_of_dvd (by omega) hfine.1⟩
      · have hgg : sz.1.g = g := by injection h
        rw [hgg] at hout
        have hg0 : g ≠ 0 := by
          intro h0
          rw [h0] at hout
          have := Nat.eq_zero_of_zero_dvd hout.1
          omega
        have hg1 : 1 < g := by
          rcases Nat.lt_or_ge 1 g with hlt | hle
          · exact hlt
          · interval_cases g
            · exact absurd rfl hg0
            · exact absurd rfl hout.2
        exact ⟨hout.1, hg1, Nat.le_of_dvd (by omega) hout.1⟩

/-- C1 counterexample: `x = 25` is composite, yet with the random draws
`y = 1`, `c = 24`, `m = 1` the Pollard-Brent search terminates and returns
`25 = x`, which is not a nontrivial divisor of `x` (not `< x`). -/
theorem pollard_get_factor_not_always_nontrivial :
    pollard_get_factor 25 1 24 1 20 = some 25 ∧ (25 : Nat) = 5 * 5 ∧
      ¬ (25 < 25) := by
  refine ⟨by decide, by decide, by decide⟩

/-- C1 witness: `get_factor(15)` with any draws returns `3`, a divisor of
`15` with `1 < 3 ≤ 15`. -/
theorem pollard_get_factor_divides_witness : (3 : Nat) ∣ 15 ∧ 1 < 3 ∧ 3 ≤ 15 :=
  pollard_get_factor_divides 15 1 1 1 1 3 (by decide) (by decide)

/-- C8 (amended): the fast paths of `PollardBrentFactorizer::get_factor`
are tested in source order: even `x` returns 2; otherwise `x` divisible by
3 returns 3; otherwise `x < 2` returns `x` unchanged.  (The unqualified
claim fails at `x = 6`, which is divisible by 3 but returns 2.) -/
theorem pollard_fast_paths (x y c m fuel : Nat) :
    (x % 2 = 0 → pollard_get_factor x y c m fuel = some 2) ∧
    (x % 2 ≠ 0 → x % 3 = 0 → pollard_get_factor x y c m fuel = some 3) ∧
    (x % 2 ≠ 0 → x % 3 ≠ 0 → x < 2 → pollard_get_factor x y c m fuel = some x) := by
  refine ⟨fun h2 => ?_, fun h2 h3 => ?_, fun h2 h3 h4 => ?_⟩ <;>
    unfold pollard_get_factor <;> split_ifs <;> first | rfl | omega

/-- C8 counterexample: `6` is divisible by 3, yet `get_factor(6)` returns
`2` (the even fast path fires first), not `3` as the claim states. -/
theorem pollard_fast_paths_counterexample :
    (6 : Nat) % 3 = 0 ∧ pollard_get_factor 6 1 1 1 1 = some 2 ∧
      (some 2 : Option Nat) ≠ some 3 := by
  refine ⟨by decide, by decide, by decide⟩

/-- C8 witness: the three fast paths evaluated at `x = 4`, `9`, `1`. -/
theorem pollard_fast_paths_witness :
    pollard_get_factor 4 1 1 1 1 = some 2 ∧
    pollard_get_factor 9 1 1 1 1 = some 3 ∧
    pollard_get_factor 1 1 1 1 1 = some 1 :=
  ⟨(pollard_fast_paths 4 1 1 1 1).1 (by decide),
   (pollard_fast_paths 9 1 1 1 1).2.1 (by decide) (by decide),
   (pollard_fast_paths 1 1 1 1 1).2.2 (by decide) (by decide) (by decide)⟩

/-- C10: for `x ≥ 1`, `next_in_sequence` always lands in `[0, x)`; hence
with `y` and the checkpoint `z` in `[0, x)` the quantity `x + z - y` never
underflows (`y ≤ x + z`) and is congruent to `z - y` modulo `x`; and the
coarse search loop preserves the bounds `y < x`, `z < x`, `y_prev < x`
whenever it terminates. -/
theorem next_in_sequence_bounds (x c m y z fuel r : Nat) (s s2 : PBState)
    (z2 : Nat) (hx : 1 ≤ x) (hy : y < x) (hz : z < x)
    (hsy : s.y < x) (hsp : s.y_prev < x)
    (houter : pb_outer x c m fuel r s z = some (s2, z2)) :
    next_in_sequence y x c < x ∧
    y ≤ x + z ∧
    ((x + z - y : Nat) : Int) % (x : Int) = ((z : Int) - (y : Int)) % (x : Int) ∧
    s2.y < x ∧ z2 < x ∧ s2.y_prev < x := by
  have hsub : ((x + z - y : Nat) : Int) = (x : Int) + z - y := by
    omega
  have hmod : ((x : Int) + z - y) % (x : Int) = ((z : Int) - y) % (x : Int) := by
    have : ((x : Int) + z - y) = ((z : Int) - y) + (x : Int) * 1 := by ring
    rw [this, Int.add_mul_emod_self_left]
  have hb := pb_outer_bounds x c m (by omega) fuel r s z s2 z2 houter hsy hsp hz
  exact ⟨next_in_sequence_lt y x c (by omega), by omega, by rw [hsub]; exact hmod,
    hb.1, hb.2.1, hb.2.2⟩

/-- C10 witness: instantiated at `x = 25`, `c = 24`, `m = 1`, `y = 3`,
`z = 7`, with a concrete terminating run of the coarse search. -/
theorem next_in_sequence_bounds_witness :
    next_in_sequence 3 25 24 < 25 ∧
    3 ≤ 25 + 7 ∧
    ((25 + 7 - 3 : Nat) : Int) % (25 : Int) = ((7 : Int) - (3 : Int)) % (25 : Int) ∧
    (PBState.mk 24 0 25 0).y < 25 ∧ 24 < 25 ∧ (PBState.mk 24 0 25 0).y_prev < 25 :=
  next_in_sequence_bounds 25 24 1 3 7 5 1 ⟨1, 1, 1, 0⟩ ⟨24, 0, 25, 0⟩ 24
    (by decide) (by decide) (by decide) (by decide) (by decide) (by decide)

/-! ## Theorems about factorize_limited -/

theorem divide_out_go_spec (p : Nat) (hp : 2 ≤ p) :
    ∀ fuel c, c ≤ fuel → c ≠ 0 →
      (divide_out_go p fuel c).2 * p ^ (divide_out_go p fuel c).1 = c ∧
      ¬ p ∣ (divide_out_go p fuel c).2 ∧ (divide_out_go p fuel c).2 ≠ 0 := by
  intro fuel
  induction fuel with
  | zero => intro c hc hc0; omega
  | succ fuel ih =>
      intro c hc hc0
      rw [divide_out_go]
      split
      · rename_i hcond
        obtain ⟨hmod, -, -⟩ := hcond
        have hdvd : p ∣ c := Nat.dvd_of_mod_eq_zero hmod
        have hmul : c / p * p = c := Nat.div_mul_cancel hdvd
        have hne : c / p ≠ 0 := by
          intro h0; rw [h0] at hmul; omega
        have hlt : c / p < c := Nat.div_lt_self (Nat.pos_of_ne_zero hc0) (by omega)
        have hrec := ih (c / p) (by omega) hne
        refine ⟨?_, hrec.2.1, hrec.2.2⟩
        have h1 := hrec.1
        calc (divide_out_go p fuel (c / p)).2 * p ^ ((divide_out_go p fuel (c / p)).1 + 1)
            = (divide_out_go p fuel (c / p)).2 * p ^ (divide_out_go p fuel (c / p)).1 * p := by
              rw [pow_succ]; ring
          _ = c / p * p := by rw [h1]
          _ = c := hmul
      · rename_i hcond
        have hmod : ¬ c % p = 0 := fun hm => hcond ⟨hm, hc0, hp⟩
        exact ⟨by simp, fun hd => hmod (Nat.mod_eq_zero_of_dvd hd), hc0⟩

theorem divide_out_spec (p c : Nat) (hp : 2 ≤ p) (hc : c ≠ 0) :
    (divide_out p c).2 * p ^ (divide_out p c).1 = c ∧
    ¬ p ∣ (divide_out p c).2 ∧ (divide_out p c).2 ≠ 0 :=
  divide_out_go_spec p hp c c le_rfl hc

theorem Factorization.hasKey_one (p : Nat) : Factorization.one.hasKey p = false := rfl

theorem Factorization.product_set_fresh (f : Factorization) (p k : Nat)
    (h : f.hasKey p = false) : (f.set p k).product = f.product * p ^ k := by
  unfold Factorization.set
  rw [h]
  simp [Factorization.product]

theorem Factorization.hasKey_set_fresh (f : Factorization) (p k q : Nat)
    (hp : f.hasKey p = false) (hq : f.hasKey q = false) (hne : q ≠ p) :
    (f.set p k).hasKey q = false := by
  unfold Factorization.set
  rw [hp]
  unfold Factorization.hasKey at hq ⊢
  rw [if_neg Bool.false_ne_true]
  dsimp only
  rw [List.any_append, hq]
  simp [beq_eq_false_iff_ne, Ne.symm hne]

theorem fl_fold_go_spec (primes : List Nat) :
    ∀ (f : Factorization) (c : Nat),
      (∀ p ∈ primes, Nat.Prime p) → primes.Nodup → c ≠ 0 →
      (∀ p ∈ primes, f.hasKey p = false) →
      (primes.foldl fl_step (f, c)).2 ≠ 0 ∧
      (primes.foldl fl_step (f, c)).2 ∣ c ∧
      (∀ p ∈ primes, ¬ p ∣ (primes.foldl fl_step (f, c)).2) ∧
      (primes.foldl fl_step (f, c)).1.product * (primes.foldl fl_step (f, c)).2
        = f.product * c ∧
      (∀ q, Nat.Prime q → q ∣ c → q ∉ primes → q ∣ (primes.foldl fl_step (f, c)).2) := by
  induction primes with
  | nil =>
      intro f c _ _ hc _
      exact ⟨hc, dvd_rfl, by simp, rfl, fun q _ hq _ => hq⟩
  | cons p rest ih =>
      intro f c hp hnd hc hkeys
      have hp_p : Nat.Prime p := hp p (List.mem_cons_self p rest)
      have hp2 : 2 ≤ p := hp_p.two_le
      have dspec := divide_out_spec p c hp2 hc
      have hstep : fl_step (f, c) p
          = (f.set p (divide_out p c).1, (divide_out p c).2) := rfl
      have hpnotin : p ∉ rest := (List.nodup_cons.mp hnd).1
      have hkeyf : f.hasKey p = false := hkeys p (List.mem_cons_self p rest)
      have hkeys2 : ∀ q ∈ rest, (f.set p (divide_out p c).1).hasKey q = false := by
        intro q hqmem
        exact Factorization.hasKey_set_fresh f p _ q hkeyf
          (hkeys q (List.mem_cons_of_mem p hqmem))
          (fun hqp => hpnotin (hqp ▸ hqmem))
      have hrec := ih (f.set p (divide_out p c).1) (divide_out p c).2
        (fun q hq => hp q (List.mem_cons_of_mem p hq)) (List.nodup_cons.mp hnd).2
        dspec.2.2 hkeys2
      have hfold : (p :: rest).foldl fl_step (f, c)
          = rest.foldl fl_step (f.set p (divide_out p c).1, (divide_out p c).2) := by
        rw [List.foldl_cons, hstep]
      rw [hfold]
      have hc1dvd : (divide_out p c).2 ∣ c := ⟨p ^ (divide_out p c).1, dspec.1.symm⟩
      refine ⟨hrec.1, hrec.2.1.trans hc1dvd, ?_, ?_, ?_⟩
      · intro q hq
        rcases List.mem_cons.mp hq with rfl | hq2
        · exact fun hd => dspec.2.1 (hd.trans hrec.2.1)
        · exact hrec.2.2.1 q hq2
      · rw [hrec.2.2.2.1, Factorization.product_set_fresh f p _ hkeyf]
        calc f.product * p ^ (divide_out p c).1 * (divide_out p c).2
            = f.product * ((divide_out p c).2 * p ^ (divide_out p c).1) := by ring
          _ = f.product * c := by rw [dspec.1]
      · intro q hq hqc hqnot
        have hqrest : q ∉ rest := fun hmemr => hqnot (List.mem_cons_of_mem p hmemr)
        have hqc2 : q ∣ (divide_out p c).2 * p ^ (divide_out p c).1 := dspec.1.symm ▸ hqc
        rcases (Nat.Prime.dvd_mul hq).mp hqc2 with hdc1 | hdpk
        · exact hrec.2.2.2.2 q hq hdc1 hqrest
        · have : q = p := (Nat.prime_dvd_prime_iff_eq hq hp_p).mp
            (Nat.Prime.dvd_of_dvd_pow hq hdpk)
          exact absurd (this ▸ List.mem_cons_self p rest) hqnot

/-- C2 (amended): for every strictly positive `value` and every ordered
list of distinct primes, `factorize_limited(value, primes)` returns
`Some(f)` iff the remainder after repeatedly dividing `value` by each
listed prime in order equals 1, i.e. iff every prime factor of `value` is
in the list, and in that case the reconstructed product of `f` equals
`value` exactly.  (The distinctness hypothesis is forced by the
counterexample: with a duplicated prime in the base, `set` overwrites the
recorded exponent and the reconstructed product is wrong.) -/
theorem factorize_limited_correct (x : Nat) (primes : List Nat)
    (hx : 0 < x) (hp : ∀ p ∈ primes, Nat.Prime p) (hnd : primes.Nodup) :
    ((factorize_limited x primes).isSome
       ↔ ∀ q, Nat.Prime q → q ∣ x → q ∈ primes) ∧
    (∀ f, factorize_limited x primes = some f → f.product = x) := by
  have hspec := fl_fold_go_spec primes Factorization.one x hp hnd (by omega)
    (fun p _ => rfl)
  have hsome : (factorize_limited x primes).isSome ↔ (fl_fold x primes).2 = 1 := by
    unfold factorize_limited
    split <;> simp_all
  constructor
  · rw [hsome]
    constructor
    · intro h1 q hq hqx
      by_contra hqnot
      have := hspec.2.2.2.2 q hq hqx hqnot
      rw [show (fl_fold x primes) = primes.foldl fl_step (Factorization.one, x) from rfl] at h1
      rw [h1] at this
      exact hq.one_lt.ne' (Nat.eq_one_of_dvd_one this)
    · intro hall
      by_contra hne1
      have hne1 : (primes.foldl fl_step (Factorization.one, x)).2 ≠ 1 := hne1
      obtain ⟨q, hq, hqdvd⟩ := Nat.exists_prime_and_dvd hne1
      have hqx : q ∣ x := hqdvd.trans hspec.2.1
      exact hspec.2.2.1 q (hall q hq hqx) hqdvd
  · intro f hf
    unfold factorize_limited at hf
    split at hf
    · rename_i h1
      have hff : (fl_fold x primes).1 = f := by injection hf
      have := hspec.2.2.2.1
      rw [show primes.foldl fl_step (Factorization.one, x) = fl_fold x primes from rfl] at this
      rw [hff, h1] at this
      simpa [Factorization.product, Factorization.one] using this
    · exact Option.noConfusion hf

/-- C2 counterexample: with the duplicated base `[2, 2]` (a list of
primes) and `value = 4`, `factorize_limited` succeeds but the second
`set(2, 0)` overwrites the recorded exponent, so the reconstructed
product is `1`, not `4`. -/
theorem factorize_limited_duplicate_counterexample :
    (factorize_limited 4 [2, 2]).map Factorization.product = some 1 ∧
    Nat.Prime 2 ∧ (0 : Nat) < 4 ∧ (1 : Nat) ≠ 4 := by
  refine ⟨by decide, by decide, by decide, by decide⟩

/-- C2 witness: the Rust test value `2450 = 2 * 5^2 * 7^2` over the base
`[2, 5, 7]` succeeds and reconstructs exactly. -/
theorem factorize_limited_correct_witness :
    Factorization.product
        ((factorize_limited 2450 [2, 5, 7]).getD Factorization.one) = 2450 :=
  (factorize_limited_correct 2450 [2, 5, 7] (by decide) (by decide) (by decide)).2
    ((factorize_limited 2450 [2, 5, 7]).getD Factorization.one) (by decide)

theorem isqrt_eq (a n : Nat) (h1 : a * a ≤ n) (h2 : n < (a + 1) * (a + 1)) :
    isqrt n = a := (Nat.eq_sqrt.mpr ⟨h1, h2⟩).symm

theorem isqrt_four : isqrt 4 = 2 := isqrt_eq 2 4 (by norm_num) (by norm_num)

theorem isqrt_six : isqrt 6 = 2 := isqrt_eq 2 6 (by norm_num) (by norm_num)

/-- C3: in the congruence-collection loop, for `x ≥ 2` and any sampled
`a` with `isqrt x ≤ a < x`, if `b = a*a mod x` is zero then `gcd(a, x)`
is neither 1 nor `x`, so both assertions guarding the early return hold
and the attempt returns `found (gcd a x)` immediately. -/
theorem dixon_early_exit (x a : Nat) (primes : List Nat) (hx : 2 ≤ x)
    (ha1 : isqrt x ≤ a) (ha2 : a < x) (hb : a * a % x = 0) :
    dixon_attempt x primes a = AttemptResult.found (gcd a x) ∧
    gcd a x ≠ 1 ∧ gcd a x ≠ x := by
  have ha0 : 0 < a := by
    have : 0 < isqrt x := by
      unfold isqrt
      exact Nat.sqrt_pos.mpr (by omega)
    omega
  have hxdvd : x ∣ a * a := Nat.dvd_of_mod_eq_zero hb
  refine ⟨by unfold dixon_attempt; rw [if_pos hb], ?_, ?_⟩
  · intro h1
    have hcop : Nat.Coprime x a := Nat.coprime_comm.mp h1
    have hxa : x ∣ a := (Nat.Coprime.dvd_of_dvd_mul_right hcop) hxdvd
    have := Nat.le_of_dvd ha0 hxa
    omega
  · intro hgx
    have hxa : x ∣ a := hgx ▸ Nat.gcd_dvd_left a x
    have := Nat.le_of_dvd ha0 hxa
    omega

/-- C3 witness: `x = 4`, `a = 2 = isqrt 4`: `b = 0` and `gcd(2,4) = 2` is
a nontrivial divisor. -/
theorem dixon_early_exit_witness :
    dixon_attempt 4 [] 2 = AttemptResult.found (gcd 2 4) ∧
    gcd 2 4 ≠ 1 ∧ gcd 2 4 ≠ 4 :=
  dixon_early_exit 4 2 [] (by decide) (le_of_eq isqrt_four) (by decide) (by decide)

/-- C7 (the code bug): the sampling range `[isqrt x, x)` does not ensure
`a*a > x`: at `x = 6` the lower bound `isqrt 6 = 2` is an admissible
sample, yet `2 * 2 = 4` is not greater than `6`.  The source itself flags
this with `XXX: ceil? (ensure a^2 > x)`. -/
theorem dixon_sampling_bound_failure :
    isqrt 6 ≤ 2 ∧ 2 < 6 ∧ ¬ (2 * 2 > 6) ∧ isqrt 6 = 2 :=
  ⟨le_of_eq isqrt_six, by decide, by decide, isqrt_six⟩

/-! ## Theorems about the bit matrix -/

theorem getD_set_self {α : Type} (l : List α) (i : Nat) (a d : α)
    (h : i < l.length) : (l.set i a).getD i d = a := by
  simp [List.getD_eq_getElem?_getD, List.getElem?_set_self h]

theorem getD_set_ne {α : Type} (l : List α) (i j : Nat) (a d : α)
    (h : i ≠ j) : (l.set i a).getD j d = l.getD j d := by
  simp [List.getD_eq_getElem?_getD, List.getElem?_set_ne h]

theorem nrows_swap (m : DixonBitmatrix) (i j : Nat) :
    (m.swap_rows i j).nrows = m.nrows := by
  simp [DixonBitmatrix.nrows, DixonBitmatrix.swap_rows]

theorem nrows_xor (m : DixonBitmatrix) (src dest : Nat) :
    (m.xor_update_row src dest).nrows = m.nrows := by
  simp [DixonBitmatrix.nrows, DixonBitmatrix.xor_update_row]

theorem width_swap (m : DixonBitmatrix) (i j : Nat) :
    (m.swap_rows i j).width = m.width := rfl

theorem width_xor (m : DixonBitmatrix) (src dest : Nat) :
    (m.xor_update_row src dest).width = m.width := rfl

theorem rowAt_xor_self (m : DixonBitmatrix) (src dest : Nat)
    (h : dest < m.nrows) :
    (m.xor_update_row src dest).rowAt dest =
      ⟨symmDiff (m.rowAt dest).elements (m.rowAt src).elements,
       symmDiff (m.rowAt dest).indices (m.rowAt src).indices⟩ := by
  unfold DixonBitmatrix.xor_update_row DixonBitmatrix.rowAt
  exact getD_set_self _ _ _ _ h

theorem rowAt_xor_ne (m : DixonBitmatrix) (src dest r : Nat) (h : r ≠ dest) :
    (m.xor_update_row src dest).rowAt r = m.rowAt r := by
  unfold DixonBitmatrix.xor_update_row DixonBitmatrix.rowAt
  exact getD_set_ne _ _ _ _ _ (fun he => h he.symm)

theorem rowAt_swap (m : DixonBitmatrix) (i j r : Nat)
    (hi : i < m.nrows) (hj : j < m.nrows) :
    (m.swap_rows i j).rowAt r =
      if r = j then m.rowAt i else if r = i then m.rowAt j else m.rowAt r := by
  unfold DixonBitmatrix.swap_rows DixonBitmatrix.rowAt
  show ((m.rows.set i (m.rows.getD j emptyRow)).set j
      (m.rows.getD i emptyRow)).getD r emptyRow = _
  by_cases hrj : r = j
  · subst hrj
    rw [if_pos rfl]
    exact getD_set_self _ _ _ _ (by simpa using hj)
  · rw [if_neg hrj, getD_set_ne _ _ _ _ _ (fun he => hrj he.symm)]
    by_cases hri : r = i
    · subst hri
      rw [if_pos rfl]
      exact getD_set_self _ _ _ _ hi
    · rw [if_neg hri]
      exact getD_set_ne _ _ _ _ _ (fun he => hri he.symm)

/-- C9 (amended): for distinct in-range row indices `src ≠ dest`,
applying `xor_update_row(src, dest)` twice restores row `dest` (both its
`elements` and its `indices`) to its original state.  (For `src = dest`
the first application already zeroes the row, so the claim fails; see the
counterexample.) -/
theorem xor_update_row_involutive (m : DixonBitmatrix) (src dest : Nat)
    (_hs : src < m.nrows) (hd : dest < m.nrows) (hne : src ≠ dest) :
    ((m.xor_update_row src dest).xor_update_row src dest).rowAt dest
      = m.rowAt dest := by
  have hd1 : dest < (m.xor_update_row src dest).nrows := by
    rw [nrows_xor]; exact hd
  rw [rowAt_xor_self _ _ _ hd1, rowAt_xor_self _ _ _ hd,
    rowAt_xor_ne m src dest src hne]
  rcases hrow : m.rowAt dest with ⟨e, i⟩
  simp [symmDiff_symmDiff_cancel_right]

/-- C9 counterexample: with `src = dest = 0` (in range) on the Rust test
matrix, applying `xor_update_row(0, 0)` twice leaves row 0 zeroed, not
restored. -/
theorem xor_update_row_self_counterexample :
    ((gen_test_matrix.xor_update_row 0 0).xor_update_row 0 0).rowAt 0
        ≠ gen_test_matrix.rowAt 0 ∧
    0 < gen_test_matrix.nrows := by
  refine ⟨by decide, by decide⟩

/-- C9 witness: the Rust `test_row_xor` instance `src = 1`, `dest = 3`. -/
theorem xor_update_row_involutive_witness :
    ((gen_test_matrix.xor_update_row 1 3).xor_update_row 1 3).rowAt 3
      = gen_test_matrix.rowAt 3 :=
  xor_update_row_involutive gen_test_matrix 1 3 (by decide) (by decide) (by decide)

/-! ## The indices bookkeeping invariant (C4) -/

theorem finsetXor_def (a b : Finset Nat) : finsetXor a b = symmDiff a b := rfl

theorem xorFold_empty (init : Nat → Finset Nat) : xorFold init ∅ = ∅ := rfl

theorem xorFold_singleton (init : Nat → Finset Nat) (i : Nat) :
    xorFold init {i} = init i := by
  unfold xorFold
  rw [Finset.fold_singleton, finsetXor_def]
  simp

theorem xorFold_symmDiff (init : Nat → Finset Nat) (s t : Finset Nat) :
    xorFold init (symmDiff s t) = symmDiff (xorFold init s) (xorFold init t) := by
  have hsplit : (symmDiff s t) ∪ (s ∩ t) = s ∪ t := by
    have h := symmDiff_sup_inf s t
    simpa [Finset.sup_eq_union, Finset.inf_eq_inter] using h
  have hdisj : Disjoint (symmDiff s t) (s ∩ t) := by
    have h := disjoint_symmDiff_inf s t
    simpa [Finset.inf_eq_inter] using h
  have hint : (symmDiff s t) ∩ (s ∩ t) = ∅ :=
    Finset.disjoint_iff_inter_eq_empty.mp hdisj
  unfold xorFold
  have h1 : finsetXor (((symmDiff s t) ∪ (s ∩ t)).fold finsetXor ∅ init)
      (((symmDiff s t) ∩ (s ∩ t)).fold finsetXor ∅ init)
      = finsetXor ((symmDiff s t).fold finsetXor ∅ init)
          ((s ∩ t).fold finsetXor ∅ init) :=
    Finset.fold_union_inter
  rw [hsplit, hint] at h1
  have h2 : finsetXor ((s ∪ t).fold finsetXor ∅ init)
      ((s ∩ t).fold finsetXor ∅ init)
      = finsetXor (s.fold finsetXor ∅ init) (t.fold finsetXor ∅ init) :=
    Finset.fold_union_inter
  have h3 : ((∅ : Finset Nat).fold finsetXor ∅ init) = ∅ := Finset.fold_empty
  rw [h3] at h1
  simp only [finsetXor_def] at h1 h2
  have h5 : symmDiff ((s ∪ t).fold finsetXor ∅ init) (∅ : Finset Nat)
      = (s ∪ t).fold finsetXor ∅ init := by simp
  rw [h5] at h1
  calc (symmDiff s t).fold finsetXor ∅ init
      = symmDiff (symmDiff ((symmDiff s t).fold finsetXor ∅ init)
          ((s ∩ t).fold finsetXor ∅ init))
          ((s ∩ t).fold finsetXor ∅ init) :=
        (symmDiff_symmDiff_cancel_right _ _).symm
    _ = symmDiff ((s ∪ t).fold finsetXor ∅ init)
          ((s ∩ t).fold finsetXor ∅ init) := by rw [← h1]
    _ = symmDiff (s.fold finsetXor ∅ init) (t.fold finsetXor ∅ init) := h2

theorem RowInv_emptyRow (init : Nat → Finset Nat) : RowInv init emptyRow := rfl

theorem AllRowsInv_rowAt {init : Nat → Finset Nat} {m : DixonBitmatrix}
    (h : AllRowsInv init m) (r : Nat) : RowInv init (m.rowAt r) := by
  unfold DixonBitmatrix.rowAt
  rcases hr : m.rows[r]? with _ | v
  · simp only [List.getD_eq_getElem?_getD, hr, Option.getD_none]
    exact RowInv_emptyRow init
  · simp only [List.getD_eq_getElem?_getD, hr, Option.getD_some]
    exact h v (List.getElem?_mem hr)

theorem AllRowsInv_swap {init : Nat → Finset Nat} {m : DixonBitmatrix}
    (h : AllRowsInv init m) (i j : Nat) : AllRowsInv init (m.swap_rows i j) := by
  intro v hv
  rcases List.mem_or_eq_of_mem_set hv with hv1 | rfl
  · rcases List.mem_or_eq_of_mem_set hv1 with hv2 | rfl
    · exact h v hv2
    · exact AllRowsInv_rowAt h j
  · exact AllRowsInv_rowAt h i

theorem RowInv_xor {init : Nat → Finset Nat} {v1 v2 : DixonBitvec}
    (h1 : RowInv init v1) (h2 : RowInv init v2) :
    RowInv init ⟨symmDiff v1.elements v2.elements,
      symmDiff v1.indices v2.indices⟩ := by
  unfold RowInv at *
  simp only
  rw [h1, h2, xorFold_symmDiff]

theorem AllRowsInv_xor {init : Nat → Finset Nat} {m : DixonBitmatrix}
    (h : AllRowsInv init m) (src dest : Nat) :
    AllRowsInv init (m.xor_update_row src dest) := by
  intro v hv
  rcases List.mem_or_eq_of_mem_set hv with hv1 | rfl
  · exact h v hv1
  · exact RowInv_xor (AllRowsInv_rowAt h dest) (AllRowsInv_rowAt h src)

theorem foldl_preserves {α β : Type} (P : β → Prop) (step : β → α → β)
    (hstep : ∀ b a, P b → P (step b a)) :
    ∀ (l : List α) (b : β), P b → P (l.foldl step b) := by
  intro l
  induction l with
  | nil => intro b hb; exact hb
  | cons a l ih => intro b hb; exact ih _ (hstep b a hb)

theorem AllRowsInv_elim_step {init : Nat → Finset Nat} {m : DixonBitmatrix}
    (h : AllRowsInv init m) (target col other : Nat) :
    AllRowsInv init (elim_step target col m other) := by
  unfold elim_step
  split
  · exact AllRowsInv_xor h target other
  · exact h

theorem AllRowsInv_process_col {init : Nat → Finset Nat}
    {mt : DixonBitmatrix × Nat} (h : AllRowsInv init mt.1) (col : Nat) :
    AllRowsInv init (process_col mt col).1 := by
  unfold process_col
  rcases hf : find_pivot mt.1 col mt.2 with _ | src
  · exact h
  · exact foldl_preserves (AllRowsInv init) _
      (fun b a hb => AllRowsInv_elim_step hb mt.2 col a) _ _
      (AllRowsInv_swap h src mt.2)

theorem AllRowsInv_to_ref {init : Nat → Finset Nat} {m : DixonBitmatrix}
    (h : AllRowsInv init m) : AllRowsInv init (bit_matrix_to_ref m) := by
  unfold bit_matrix_to_ref
  have hfold := foldl_preserves (fun (mt : DixonBitmatrix × Nat) => AllRowsInv init mt.1)
    process_col (fun b a hb => AllRowsInv_process_col hb a) (List.range m.ncols) (m, 0) h
  exact hfold

theorem AllRowsInv_applyOps {init : Nat → Finset Nat} {m : DixonBitmatrix}
    (h : AllRowsInv init m) (ops : List MatrixOp) :
    AllRowsInv init (applyOps m ops) := by
  unfold applyOps
  refine foldl_preserves (AllRowsInv init) applyOp ?_ ops m h
  intro b a hb
  cases a with
  | swap i j => exact AllRowsInv_swap hb i j
  | xorRow src dest => exact AllRowsInv_xor hb src dest

theorem find?_filter_key (l : List (Nat × Nat)) (keep : Nat × Nat → Bool)
    (p : Nat) (hkeep : ∀ q : Nat × Nat, (q.1 == p) = true → keep q = true) :
    (l.filter keep).find? (fun q => q.1 == p) = l.find? (fun q => q.1 == p) := by
  induction l with
  | nil => rfl
  | cons a l ih =>
      cases hk : keep a
      · have ha : (a.1 == p) = false := by
          cases hap : (a.1 == p)
          · rfl
          · rw [hkeep a hap] at hk; exact absurd hk (by simp)
        simp [List.filter_cons, hk, List.find?_cons, ha, ih]
      · cases hap : (a.1 == p) <;>
          simp [List.filter_cons, hk, List.find?_cons, hap, ih]

theorem Factorization.get_mul (f g : Factorization) (p : Nat) :
    (f.mul g).get p = f.get p + g.get p := by
  unfold Factorization.mul Factorization.get
  dsimp only
  rw [List.find?_append, List.find?_map]
  have hcomp : ∀ (F : Nat × Nat → Nat),
      ((fun (q : Nat × Nat) => q.1 == p) ∘ (fun (q : Nat × Nat) => (q.1, F q)))
        = (fun (q : Nat × Nat) => q.1 == p) := by
    intro F; funext q; rfl
  rw [hcomp]
  cases hk : f.hasKey p
  · have hf : f.entries.find? (fun q => q.1 == p) = none := by
      rw [List.find?_eq_none]
      intro x hx
      unfold Factorization.hasKey at hk
      rw [List.any_eq_false] at hk
      exact hk x hx
    rw [hf]
    have hfilter : (g.entries.filter (fun q => ! f.hasKey q.1)).find?
        (fun q => q.1 == p) = g.entries.find? (fun q => q.1 == p) := by
      refine find?_filter_key _ _ _ ?_
      intro q hq
      have : q.1 = p := by simpa using hq
      rw [this, hk]
      rfl
    simp only [Option.map_none', Option.none_or]
    rw [hfilter]
    cases hg : g.entries.find? (fun q => q.1 == p) <;> simp
  · rcases hf : f.entries.find? (fun q => q.1 == p) with _ | q
    · rw [List.find?_eq_none] at hf
      unfold Factorization.hasKey at hk
      rw [List.any_eq_true] at hk
      obtain ⟨x, hx, hpx⟩ := hk
      exact absurd hpx (hf x hx)
    · have hqp : q.1 = p := by
        have := List.find?_some hf
        simpa using this
      rw [hf]
      simp only [Option.map_some', Option.or_some, Option.getD_some]
      rw [hqp]

theorem get_one_eq_zero (p : Nat) : Factorization.one.get p = 0 := rfl

theorem get_foldl_mul (h : Nat → Factorization) :
    ∀ (L : List Nat) (acc : Factorization) (p : Nat),
      (L.foldl (fun a i => a.mul (h i)) acc).get p
        = acc.get p + (L.map (fun i => (h i).get p)).sum := by
  intro L
  induction L with
  | nil => intro acc p; simp
  | cons i L ih =>
      intro acc p
      simp only [List.foldl_cons, List.map_cons, List.sum_cons]
      rw [ih, Factorization.get_mul]
      omega

theorem dixon_b_prod_get (bfacts : List Factorization) (S : Finset Nat)
    (p : Nat) :
    (dixon_b_prod bfacts S).get p
      = ∑ i ∈ S, (bfacts.getD i Factorization.one).get p := by
  unfold dixon_b_prod
  rw [get_foldl_mul (fun i => bfacts.getD i Factorization.one)]
  rw [get_one_eq_zero, Nat.zero_add]
  have hperm : List.Perm
      ((S.sort (· ≤ ·)).map (fun i => (bfacts.getD i Factorization.one).get p))
      (S.toList.map (fun i => (bfacts.getD i Factorization.one).get p)) :=
    (Finset.sort_perm_toList (· ≤ ·) S).map _
  rw [hperm.sum_eq]
  exact Finset.sum_to_list S _

theorem mem_xorFold (init : Nat → Finset Nat) (S : Finset Nat) (c : Nat) :
    c ∈ xorFold init S ↔ ((S.filter (fun i => c ∈ init i)).card) % 2 = 1 := by
  classical
  induction S using Finset.induction_on with
  | empty => simp [xorFold]
  | @insert a S ha ih =>
      unfold xorFold at ih ⊢
      rw [Finset.fold_insert ha, finsetXor_def, Finset.mem_symmDiff,
        Finset.filter_insert]
      by_cases hc : c ∈ init a
      · rw [if_pos hc,
          Finset.card_insert_of_not_mem (fun hm => ha (Finset.mem_of_mem_filter a hm))]
        simp only [hc, true_and, not_true_eq_false, and_false, or_false]
        rw [ih]
        omega
      · rw [if_neg hc]
        simp only [hc, false_and, false_or, not_false_eq_true, and_true]
        exact ih

theorem even_sum_mod_two (S : Finset Nat) (g : Nat → Nat) :
    (∑ i ∈ S, g i) % 2 = ((S.filter (fun i => g i % 2 = 1)).card) % 2 := by
  classical
  induction S using Finset.induction_on with
  | empty => simp
  | @insert a S ha ih =>
      rw [Finset.sum_insert ha, Finset.filter_insert]
      by_cases hg : g a % 2 = 1
      · rw [if_pos hg,
          Finset.card_insert_of_not_mem (fun hm => ha (Finset.mem_of_mem_filter a hm))]
        omega
      · rw [if_neg hg]
        omega

theorem bm_from_facts_rowAt (facts : List Factorization) (primes : List Nat)
    (i : Nat) (h : i < facts.length) :
    (bit_matrix_from_factorizations facts primes).rowAt i
      = ⟨initElements primes (facts.getD i Factorization.one), {i}⟩ := by
  unfold bit_matrix_from_factorizations DixonBitmatrix.rowAt
  dsimp only
  rw [List.getD_eq_getElem?_getD, List.getElem?_map,
    show facts.enum = facts.enumFrom 0 from rfl, List.getElem?_enumFrom]
  cases hf : facts[i]? with
  | none =>
      rw [List.getElem?_eq_getElem h] at hf
      exact Option.noConfusion hf
  | some a =>
      have hgd : facts.getD i Factorization.one = a := by
        rw [List.getD_eq_getElem?_getD, hf, Option.getD_some]
      rw [hgd]
      simp

theorem AllRowsInv_initial (facts : List Factorization) (primes : List Nat) :
    AllRowsInv (rowInit facts primes) (bit_matrix_from_factorizations facts primes) := by
  intro v hv
  unfold bit_matrix_from_factorizations at hv
  dsimp only at hv
  rw [List.mem_map] at hv
  obtain ⟨ri, hmem, rfl⟩ := hv
  obtain ⟨n, hn⟩ := List.mem_iff_getElem?.mp hmem
  have hn2 : (facts.enumFrom 0)[n]? = some ri := hn
  rw [List.getElem?_enumFrom] at hn2
  cases hf : facts[n]? with
  | none => rw [hf] at hn2; exact absurd hn2 (by simp)
  | some a =>
      rw [hf] at hn2
      simp only [Option.map_some'] at hn2
      have hri : ri = (n, a) := by
        have h0 := Option.some.inj hn2
        simp only [Nat.zero_add] at h0
        exact h0.symm
      subst hri
      unfold RowInv
      dsimp only
      rw [xorFold_singleton]
      unfold rowInit
      congr 1
      rw [List.getD_eq_getElem?_getD, hf]
      rfl

/-- C4: for every bit matrix built by `bit_matrix_from_factorizations`,
each row's `indices` set initially equals the singleton of its own row
index; the bookkeeping invariant (each row's `elements` equals the GF(2)
sum of the initial elements of the rows named in its `indices`) holds
initially, is preserved by every sequence of `swap_rows` /
`xor_update_row` operations, and in particular holds throughout
`bit_matrix_to_ref`; and for every all-zero row of any matrix satisfying
the invariant, the product of the b-factorizations at the indices in its
index set has every exponent even. -/
theorem dixon_bitmatrix_indices_invariant (facts : List Factorization)
    (primes : List Nat)
    (hsupp : ∀ f ∈ facts, ∀ q, f.get q ≠ 0 → q ∈ primes) (ops : List MatrixOp) :
    (∀ i, i < facts.length →
       ((bit_matrix_from_factorizations facts primes).rowAt i).indices = {i}) ∧
    AllRowsInv (rowInit facts primes) (bit_matrix_from_factorizations facts primes) ∧
    AllRowsInv (rowInit facts primes)
      (applyOps (bit_matrix_from_factorizations facts primes) ops) ∧
    AllRowsInv (rowInit facts primes)
      (bit_matrix_to_ref (bit_matrix_from_factorizations facts primes)) ∧
    (∀ M, AllRowsInv (rowInit facts primes) M → ∀ v ∈ M.rows,
       v.elements = ∅ → ∀ p, Even ((dixon_b_prod facts v.indices).get p)) := by
  have hinit := AllRowsInv_initial facts primes
  refine ⟨?_, hinit, AllRowsInv_applyOps hinit ops, AllRowsInv_to_ref hinit, ?_⟩
  · intro i hi
    rw [bm_from_facts_rowAt facts primes i hi]
  · intro M hM v hv hz p
    have hrv := hM v hv
    unfold RowInv at hrv
    have hx : xorFold (rowInit facts primes) v.indices = ∅ := by rw [← hrv, hz]
    rw [dixon_b_prod_get, Nat.even_iff, even_sum_mod_two]
    by_cases hp : p ∈ primes
    · obtain ⟨c, hc, hcp⟩ := List.mem_iff_getElem.mp hp
      have hcm : c ∉ xorFold (rowInit facts primes) v.indices := by
        rw [hx]; simp
      rw [mem_xorFold] at hcm
      have hfeq : v.indices.filter
            (fun i => (facts.getD i Factorization.one).get p % 2 = 1)
          = v.indices.filter (fun i => c ∈ rowInit facts primes i) := by
        apply Finset.filter_congr
        intro i _
        unfold rowInit initElements
        rw [Finset.mem_filter, Finset.mem_range]
        have hgp : primes.getD c 0 = p := by
          rw [List.getD_eq_getElem?_getD, List.getElem?_eq_getElem hc,
            Option.getD_some, hcp]
        rw [hgp]
        constructor
        · intro h2; exact ⟨hc, h2⟩
        · intro h2; exact h2.2
      rw [hfeq]
      omega
    · have hzero : ∀ i ∈ v.indices,
          (facts.getD i Factorization.one).get p = 0 := by
        intro i _
        rcases Nat.lt_or_ge i facts.length with hlt | hge
        · by_contra h0
          refine hp (hsupp (facts.getD i Factorization.one) ?_ p h0)
          rw [List.getD_eq_getElem?_getD, List.getElem?_eq_getElem hlt,
            Option.getD_some]
          exact List.getElem_mem _
        · rw [List.getD_eq_getElem?_getD, List.getElem?_eq_none hge,
            Option.getD_none]
          rfl
      have hempty : v.indices.filter
          (fun i => (facts.getD i Factorization.one).get p % 2 = 1) = ∅ := by
        rw [Finset.filter_eq_empty_iff]
        intro i hi
        rw [hzero i hi]
        omega
      rw [hempty]
      simp

/-- C4 witness: with the trivial factorizations `[one, one]` over the
base `[2, 5, 7]`, row 0 of the built matrix has indices `{0}`, and its
all-zero row yields a product with even exponent at `p = 2`. -/
theorem dixon_bitmatrix_indices_invariant_witness :
    ((bit_matrix_from_factorizations [Factorization.one, Factorization.one]
        [2, 5, 7]).rowAt 0).indices = {0} ∧
    Even ((dixon_b_prod [Factorization.one, Factorization.one]
        (DixonBitvec.mk ∅ {0}).indices).get 2) := by
  have hsupp : ∀ f ∈ [Factorization.one, Factorization.one],
      ∀ q, f.get q ≠ 0 → q ∈ [2, 5, 7] := by
    intro f hf q hq
    have hfe : f = Factorization.one := by
      rcases List.mem_cons.mp hf with h | h
      · exact h
      · rcases List.mem_cons.mp h with h2 | h2
        · exact h2
        · exact absurd h2 (List.not_mem_nil f)
    rw [hfe] at hq
    exact absurd rfl hq
  have h := dixon_bitmatrix_indices_invariant
    [Factorization.one, Factorization.one] [2, 5, 7] hsupp []
  exact ⟨h.1 0 (by decide), h.2.2.2.2 _ h.2.1 ⟨∅, {0}⟩ (by decide) rfl 2⟩

/-! ## Row echelon form (C5) -/

theorem get_elem_true_iff (m : DixonBitmatrix) (r c : Nat) :
    m.get_elem r c = true ↔ c ∈ (m.rowAt r).elements := by
  unfold DixonBitmatrix.get_elem
  exact decide_eq_true_iff

theorem get_elem_false_iff (m : DixonBitmatrix) (r c : Nat) :
    m.get_elem r c = false ↔ c ∉ (m.rowAt r).elements := by
  unfold DixonBitmatrix.get_elem
  exact decide_eq_false_iff_not

theorem get_elem_congr {m1 m2 : DixonBitmatrix} {r : Nat}
    (h : m1.rowAt r = m2.rowAt r) (c : Nat) :
    m1.get_elem r c = m2.get_elem r c := by
  unfold DixonBitmatrix.get_elem
  rw [h]

theorem rowAt_of_nrows_le (m : DixonBitmatrix) (r : Nat) (h : m.nrows ≤ r) :
    m.rowAt r = emptyRow := by
  unfold DixonBitmatrix.rowAt
  rw [List.getD_eq_getElem?_getD, List.getElem?_eq_none h, Option.getD_none]

theorem lt_nrows_of_get_elem {m : DixonBitmatrix} {r c : Nat}
    (h : m.get_elem r c = true) : r < m.nrows := by
  by_contra hge
  rw [get_elem_true_iff, rowAt_of_nrows_le m r (by omega)] at h
  simp [emptyRow] at h

theorem find_pivot_go_none_spec (m : DixonBitmatrix) (col : Nat) :
    ∀ fuel row, m.nrows - row ≤ fuel →
      find_pivot_go m col fuel row = none →
      ∀ r, row ≤ r → r < m.nrows → m.get_elem r col = false := by
  intro fuel
  induction fuel with
  | zero => intro row hfuel _ r hr1 hr2; omega
  | succ fuel ih =>
      intro row hfuel h r hr1 hr2
      rw [find_pivot_go] at h
      split at h
      · split at h
        · exact Option.noConfusion h
        · rename_i hget
          rcases Nat.eq_or_lt_of_le hr1 with rfl | hlt
          · exact Bool.not_eq_true _ ▸ hget
          · exact ih (row + 1) (by omega) h r (by omega) hr2
      · omega

theorem find_pivot_none (m : DixonBitmatrix) (col row : Nat)
    (h : find_pivot m col row = none) :
    ∀ r, row ≤ r → r < m.nrows → m.get_elem r col = false :=
  find_pivot_go_none_spec m col (m.nrows - row) row le_rfl h

theorem find_pivot_go_some_spec (m : DixonBitmatrix) (col src : Nat) :
    ∀ fuel row, find_pivot_go m col fuel row = some src →
      row ≤ src ∧ src < m.nrows ∧ m.get_elem src col = true ∧
      ∀ r, row ≤ r → r < src → m.get_elem r col = false := by
  intro fuel
  induction fuel with
  | zero => intro row h; exact Option.noConfusion h
  | succ fuel ih =>
      intro row h
      rw [find_pivot_go] at h
      split at h
      · split at h
        · rename_i hrow hget
          have hsrc : row = src := by injection h
          subst hsrc
          exact ⟨le_rfl, hrow, hget, fun r hr1 hr2 => by omega⟩
        · rename_i hrow hget
          have hrec := ih (row + 1) h
          refine ⟨by omega, hrec.2.1, hrec.2.2.1, ?_⟩
          intro r hr1 hr2
          rcases Nat.eq_or_lt_of_le hr1 with rfl | hlt
          · exact Bool.not_eq_true _ ▸ hget
          · exact hrec.2.2.2 r (by omega) hr2
      · exact Option.noConfusion h

theorem find_pivot_some (m : DixonBitmatrix) (col row src : Nat)
    (h : find_pivot m col row = some src) :
    row ≤ src ∧ src < m.nrows ∧ m.get_elem src col = true ∧
    ∀ r, row ≤ r → r < src → m.get_elem r col = false :=
  find_pivot_go_some_spec m col src (m.nrows - row) row h

theorem elim_step_rowAt (target col : Nat) (m : DixonBitmatrix) (a : Nat) :
    ((elim_step target col m a).nrows = m.nrows ∧
     (elim_step target col m a).width = m.width) ∧
    (∀ r, r ≠ a → (elim_step target col m a).rowAt r = m.rowAt r) ∧
    ((elim_step target col m a).rowAt a =
      if m.get_elem a col
        then ⟨symmDiff (m.rowAt a).elements (m.rowAt target).elements,
              symmDiff (m.rowAt a).indices (m.rowAt target).indices⟩
        else m.rowAt a) := by
  unfold elim_step
  split
  · rename_i hget
    refine ⟨⟨nrows_xor m target a, width_xor m target a⟩, ?_, ?_⟩
    · intro r hr
      exact rowAt_xor_ne m target a r hr
    · exact rowAt_xor_self m target a (lt_nrows_of_get_elem hget)
  · exact ⟨⟨rfl, rfl⟩, fun r _ => rfl, rfl⟩

theorem elim_fold_spec (target col : Nat) :
    ∀ (k a : Nat) (m : DixonBitmatrix), target < a →
      (((List.range' a k).foldl (elim_step target col) m).nrows = m.nrows ∧
       ((List.range' a k).foldl (elim_step target col) m).width = m.width) ∧
      (∀ r, r < a ∨ a + k ≤ r →
        ((List.range' a k).foldl (elim_step target col) m).rowAt r = m.rowAt r) ∧
      (∀ r, a ≤ r → r < a + k →
        ((List.range' a k).foldl (elim_step target col) m).rowAt r =
          if m.get_elem r col
            then ⟨symmDiff (m.rowAt r).elements (m.rowAt target).elements,
                  symmDiff (m.rowAt r).indices (m.rowAt target).indices⟩
            else m.rowAt r) := by
  intro k
  induction k with
  | zero =>
      intro a m _
      refine ⟨⟨rfl, rfl⟩, fun r _ => rfl, ?_⟩
      intro r h1 h2
      exact absurd h2 (by omega)
  | succ k ih =>
      intro a m hta
      rw [List.range'_succ, List.foldl_cons]
      have hstep := elim_step_rowAt target col m a
      have hrec := ih (a + 1) (elim_step target col m a) (by omega)
      have htarget : (elim_step target col m a).rowAt target = m.rowAt target :=
        hstep.2.1 target (by omega)
      refine ⟨⟨hrec.1.1.trans hstep.1.1, hrec.1.2.trans hstep.1.2⟩, ?_, ?_⟩
      · intro r hr
        have hr1 : r < a + 1 ∨ a + 1 + k ≤ r := by omega
        rw [hrec.2.1 r hr1]
        exact hstep.2.1 r (by omega)
      · intro r hr1 hr2
        rcases Nat.eq_or_lt_of_le hr1 with rfl | hlt
        · rw [hrec.2.1 a (by omega)]
          exact hstep.2.2
        · rw [hrec.2.2 r (by omega) (by omega)]
          have hrow : (elim_step target col m a).rowAt r = m.rowAt r :=
            hstep.2.1 r (by omega)
          rw [get_elem_congr hrow, hrow, htarget]

theorem rowAt_xor_cases (m : DixonBitmatrix) (src dest r : Nat) :
    (m.xor_update_row src dest).rowAt r = m.rowAt r ∨
    (m.xor_update_row src dest).rowAt r =
      ⟨symmDiff (m.rowAt dest).elements (m.rowAt src).elements,
       symmDiff (m.rowAt dest).indices (m.rowAt src).indices⟩ := by
  by_cases hr : r = dest
  · subst hr
    by_cases hd : r < m.nrows
    · exact Or.inr (rowAt_xor_self m src r hd)
    · left
      rw [rowAt_of_nrows_le _ r (by rw [nrows_xor]; omega),
        rowAt_of_nrows_le m r (by omega)]
  · exact Or.inl (rowAt_xor_ne m src dest r hr)

theorem ElemsWF_swap (m : DixonBitmatrix) (i j : Nat)
    (hi : i < m.nrows) (hj : j < m.nrows) (h : ElemsWF m) :
    ElemsWF (m.swap_rows i j) := by
  intro r
  have hw : (m.swap_rows i j).width = m.width := rfl
  rw [hw, rowAt_swap m i j r hi hj]
  split_ifs <;> exact h _

theorem ElemsWF_xor (m : DixonBitmatrix) (src dest : Nat) (h : ElemsWF m) :
    ElemsWF (m.xor_update_row src dest) := by
  intro r
  rw [width_xor]
  rcases rowAt_xor_cases m src dest r with he | he <;> rw [he]
  · exact h r
  · intro c hc
    rcases Finset.mem_symmDiff.mp hc with ⟨h1, -⟩ | ⟨h1, -⟩
    · exact h dest h1
    · exact h src h1

theorem ElemsWF_elim_step (target col : Nat) (m : DixonBitmatrix) (a : Nat)
    (h : ElemsWF m) : ElemsWF (elim_step target col m a) := by
  unfold elim_step
  split
  · exact ElemsWF_xor m target a h
  · exact h

theorem process_col_spec (m : DixonBitmatrix) (t col : Nat)
    (hwf : ElemsWF m) (hinv : EchelonInv m t col) :
    (process_col (m, t) col).1.nrows = m.nrows ∧
    (process_col (m, t) col).1.width = m.width ∧
    ElemsWF (process_col (m, t) col).1 ∧
    EchelonInv (process_col (m, t) col).1 (process_col (m, t) col).2 (col + 1) := by
  obtain ⟨ht, hinv2, hinv3⟩ := hinv
  unfold process_col
  split
  · rename_i hf
    dsimp only at hf ⊢
    have hnone := find_pivot_none m col t hf
    refine ⟨rfl, rfl, hwf, ht, ?_, ?_⟩
    · intro r c hr1 hr2 hc
      rcases Nat.lt_or_ge c col with hlt | hge
      · exact hinv2 r c hr1 hr2 hlt
      · have hcol : c = col := by omega
        subst hcol
        exact (get_elem_false_iff m r c).mp (hnone r hr1 hr2)
    · intro r hr
      obtain ⟨L, hL1, hL2, hL3, hL4⟩ := hinv3 r hr
      exact ⟨L, by omega, hL2, hL3, hL4⟩
  · rename_i src hf
    dsimp only at hf ⊢
    obtain ⟨hts, hsrcn, hget, hbefore⟩ := find_pivot_some m col t src hf
    have htn : t < m.nrows := by omega
    set m1 := m.swap_rows src t with hm1
    have hrow1 : ∀ r, m1.rowAt r
        = if r = t then m.rowAt src else if r = src then m.rowAt t
          else m.rowAt r :=
      fun r => rowAt_swap m src t r hsrcn htn
    have hn1 : m1.nrows = m.nrows := nrows_swap m src t
    have hwf1 : ElemsWF m1 := ElemsWF_swap m src t hsrcn htn hwf
    set k := m.nrows - (src + 1) with hk
    have hfold := elim_fold_spec t col k (src + 1) m1 (by omega)
    set m2 := (List.range' (src + 1) k).foldl (elim_step t col) m1 with hm2
    have hm2n : m2.nrows = m.nrows := hfold.1.1.trans hn1
    have hm2w : m2.width = m.width := hfold.1.2
    have hle : ∀ r, r ≤ src → m2.rowAt r = m1.rowAt r :=
      fun r hr => hfold.2.1 r (Or.inl (by omega))
    have hmid : ∀ r, src + 1 ≤ r → r < m.nrows →
        m2.rowAt r = if m1.get_elem r col
          then ⟨symmDiff (m1.rowAt r).elements (m1.rowAt t).elements,
                symmDiff (m1.rowAt r).indices (m1.rowAt t).indices⟩
          else m1.rowAt r := by
      intro r h1 h2
      exact hfold.2.2 r h1 (by omega)
    have hm1t : m1.rowAt t = m.rowAt src := by
      rw [hrow1 t, if_pos rfl]
    have hm1r : ∀ r, r ≠ t → r ≠ src → m1.rowAt r = m.rowAt r := by
      intro r h1 h2
      rw [hrow1 r, if_neg h1, if_neg h2]
    have hm1src : m1.rowAt src = m.rowAt t := by
      rw [hrow1 src]
      by_cases h : src = t
      · rw [if_pos h, h]
      · rw [if_neg h, if_pos rfl]
    have key2 : ∀ r c, t + 1 ≤ r → r < m.nrows → c < col + 1 →
        c ∉ (m2.rowAt r).elements := by
      intro r c hr1 hr2 hc
      have hccases : c < col ∨ c = col := by omega
      rcases Nat.lt_or_ge r (src + 1) with hrle | hrgt
      · have hr3 : r ≤ src := by omega
        rw [hle r hr3]
        by_cases hrs : r = src
        · subst hrs
          have hrt : r ≠ t := by omega
          rw [hm1src]
          rcases hccases with h | h
          · exact hinv2 t c le_rfl htn h
          · subst h
            exact (get_elem_false_iff m t c).mp (hbefore t le_rfl (by omega))
        · have hrt : r ≠ t := by omega
          rw [hm1r r hrt hrs]
          rcases hccases with h | h
          · exact hinv2 r c (by omega) hr2 h
          · subst h
            exact (get_elem_false_iff m r c).mp (hbefore r (by omega) (by omega))
      · rw [hmid r hrgt hr2]
        have hm1req : m1.rowAt r = m.rowAt r := hm1r r (by omega) (by omega)
        rw [get_elem_congr hm1req col, hm1req, hm1t]
        split
        · rename_i hgetr
          dsimp only
          intro hcmem
          rcases Finset.mem_symmDiff.mp hcmem with ⟨h1, h2⟩ | ⟨h1, h2⟩
          · rcases hccases with h | h
            · exact (hinv2 r c (by omega) hr2 h) h1
            · subst h
              exact h2 ((get_elem_true_iff m src c).mp hget)
          · rcases hccases with h | h
            · exact (hinv2 src c hts hsrcn h) h1
            · subst h
              exact h2 ((get_elem_true_iff m r c).mp hgetr)
        · rename_i hgetr
          rcases hccases with h | h
          · exact hinv2 r c (by omega) hr2 h
          · subst h
            exact (get_elem_false_iff m r c).mp (Bool.not_eq_true _ ▸ hgetr)
    refine ⟨hm2n, hm2w, ?_, ?_⟩
    · exact foldl_preserves ElemsWF (elim_step t col)
        (fun b a hb => ElemsWF_elim_step t col b a hb) _ _ hwf1
    · refine ⟨by omega, ?_, ?_⟩
      · intro r c hr1 hr2 hc
        rw [hm2n] at hr2
        exact key2 r c hr1 hr2 hc
      · intro r hr
        rcases Nat.lt_or_ge r t with hrt | hrt
        · obtain ⟨L, hL1, hL2, hL3, hL4⟩ := hinv3 r hrt
          have hm2r : m2.rowAt r = m.rowAt r := by
            rw [hle r (by omega), hm1r r (by omega) (by omega)]
          refine ⟨L, by omega, by rw [hm2r]; exact hL2,
            by rw [hm2r]; exact hL3, ?_⟩
          intro r2 c hr2a hr2b hcL
          rw [hm2n] at hr2b
          rcases Nat.lt_or_ge r2 (src + 1) with hA | hB
          · rw [hle r2 (by omega)]
            by_cases h1 : r2 = t
            · subst h1
              rw [hm1t]
              exact hL4 src c (by omega) hsrcn hcL
            · by_cases h2 : r2 = src
              · subst h2
                rw [hm1src]
                exact hL4 t c (by omega) htn hcL
              · rw [hm1r r2 h1 h2]
                exact hL4 r2 c hr2a hr2b hcL
          · rw [hmid r2 hB hr2b]
            have heq : m1.rowAt r2 = m.rowAt r2 := hm1r r2 (by omega) (by omega)
            rw [get_elem_congr heq col, heq, hm1t]
            split
            · dsimp only
              intro hcmem
              rcases Finset.mem_symmDiff.mp hcmem with ⟨h1, -⟩ | ⟨h1, -⟩
              · exact hL4 r2 c hr2a hr2b hcL h1
              · exact hL4 src c (by omega) hsrcn hcL h1
            · exact hL4 r2 c hr2a hr2b hcL
        · have hrt2 : r = t := by omega
          subst hrt2
          refine ⟨col, by omega, ?_, ?_, ?_⟩
          · rw [hle r hts, hm1t]
            exact (get_elem_true_iff m src col).mp hget
          · intro c hc
            rw [hle r hts, hm1t]
            exact hinv2 src c hts hsrcn hc
          · intro r2 c hr2a hr2b hcL
            rw [hm2n] at hr2b
            exact key2 r2 c (by omega) hr2b (by omega)

theorem ref_fold_inv (N W : Nat) :
    ∀ (n start : Nat) (m : DixonBitmatrix) (t : Nat),
      m.nrows = N → m.width = W → ElemsWF m → EchelonInv m t start →
      ((List.range' start n).foldl process_col (m, t)).1.nrows = N ∧
      ((List.range' start n).foldl process_col (m, t)).1.width = W ∧
      ElemsWF ((List.range' start n).foldl process_col (m, t)).1 ∧
      EchelonInv ((List.range' start n).foldl process_col (m, t)).1
        ((List.range' start n).foldl process_col (m, t)).2 (start + n) := by
  intro n
  induction n with
  | zero =>
      intro start m t hN hW hwf hinv
      refine ⟨hN, hW, hwf, ?_⟩
      simpa using hinv
  | succ n ih =>
      intro start m t hN hW hwf hinv
      rw [List.range'_succ, List.foldl_cons]
      have hstep := process_col_spec m t start hwf hinv
      have hrec := ih (start + 1) (process_col (m, t) start).1
        (process_col (m, t) start).2 (hstep.1.trans hN) (hstep.2.1.trans hW)
        hstep.2.2.1 hstep.2.2.2
      have harith : (start + 1) + n = start + (n + 1) := by omega
      rw [harith] at hrec
      exact hrec

theorem bit_matrix_to_ref_spec (m : DixonBitmatrix) (hwf : ElemsWF m) :
    (bit_matrix_to_ref m).nrows = m.nrows ∧
    (bit_matrix_to_ref m).width = m.width ∧
    ElemsWF (bit_matrix_to_ref m) ∧
    EchelonInv (bit_matrix_to_ref m)
      ((List.range m.ncols).foldl process_col (m, 0)).2 m.width := by
  have h0 : EchelonInv m 0 0 :=
    ⟨Nat.zero_le _, fun r c _ _ hc => absurd hc (by omega),
     fun r hr => absurd hr (by omega)⟩
  have h := ref_fold_inv m.nrows m.width m.ncols 0 m 0 rfl rfl hwf h0
  rw [← List.range_eq_range'] at h
  unfold bit_matrix_to_ref
  simpa [DixonBitmatrix.ncols] using h

theorem ElemsWF_of_rows (m : DixonBitmatrix)
    (h : ∀ v ∈ m.rows, v.elements ⊆ Finset.range m.width) : ElemsWF m := by
  intro r
  rcases Nat.lt_or_ge r m.nrows with hr | hr
  · apply h
    unfold DixonBitmatrix.rowAt
    rw [List.getD_eq_getElem?_getD, List.getElem?_eq_getElem hr, Option.getD_some]
    exact List.getElem_mem _
  · rw [rowAt_of_nrows_le m r hr]
    intro c hc
    simp [emptyRow] at hc

/-- C5: after `bit_matrix_to_ref` completes (on a matrix whose row
elements lie within the column range), the rows are in row echelon form:
if row `r1` has a leading 1 in column `L` (i.e. `L` is in its elements
and every column left of `L` is not), then every column `c < L` is zero
in row `r1` (by hypothesis) and in every row `r2 ≥ r1`; and every
all-zero row appears after every row with a leading 1 (a zero row is
never followed by a nonzero row). -/
theorem bit_matrix_to_ref_row_echelon (m : DixonBitmatrix) (hwf : ElemsWF m)
    (r1 r2 L c : Nat) (h12 : r1 ≤ r2)
    (h2n : r2 < (bit_matrix_to_ref m).nrows) :
    ((L ∈ ((bit_matrix_to_ref m).rowAt r1).elements ∧
        (∀ c2, c2 < L → c2 ∉ ((bit_matrix_to_ref m).rowAt r1).elements)) →
      c < L → c ∉ ((bit_matrix_to_ref m).rowAt r2).elements) ∧
    (((bit_matrix_to_ref m).rowAt r1).elements = ∅ → r1 < r2 →
      ((bit_matrix_to_ref m).rowAt r2).elements = ∅) := by
  obtain ⟨hn, hw, hwfM, htle, hinv2, hinv3⟩ := bit_matrix_to_ref_spec m hwf
  set M := bit_matrix_to_ref m with hM
  set T := ((List.range m.ncols).foldl process_col (m, 0)).2 with hT
  constructor
  · rintro ⟨hL, hlead⟩ hc
    by_cases hr1T : r1 < T
    · obtain ⟨L2, h1, h2, h3, h4⟩ := hinv3 r1 hr1T
      have hLL : L = L2 := by
        have hA : ¬(L < L2) := fun h => (h3 L h) hL
        have hB : ¬(L2 < L) := fun h => (hlead L2 h) h2
        omega
      rcases Nat.eq_or_lt_of_le h12 with rfl | hlt
      · exact hlead c hc
      · exact h4 r2 c hlt h2n (by omega)
    · exfalso
      have hr1n : r1 < M.nrows := by omega
      have hLw : L < m.width := by
        have hmem := Finset.mem_range.mp ((hwfM r1) hL)
        omega
      exact (hinv2 r1 L (by omega) hr1n hLw) hL
  · intro hz hlt
    by_cases hr1T : r1 < T
    · obtain ⟨L2, h1, h2, h3, h4⟩ := hinv3 r1 hr1T
      rw [hz] at h2
      exact absurd h2 (Finset.not_mem_empty L2)
    · rw [Finset.eq_empty_iff_forall_not_mem]
      intro c2 hcm
      have hcw : c2 < m.width := by
        have hmem := Finset.mem_range.mp ((hwfM r2) hcm)
        omega
      exact (hinv2 r2 c2 (by omega) h2n hcw) hcm

/-- C5 witness: on the Rust test matrix, after reduction row 2 has
leading column 2 so column 0 (left of row 1's leading column 1) is zero
in it, and row 4 (after the zero row 3) is all-zero. -/
theorem bit_matrix_to_ref_row_echelon_witness :
    (0 : Nat) ∉ ((bit_matrix_to_ref gen_test_matrix).rowAt 2).elements ∧
    ((bit_matrix_to_ref gen_test_matrix).rowAt 4).elements = ∅ := by
  have hwf : ElemsWF gen_test_matrix := ElemsWF_of_rows gen_test_matrix (by decide)
  refine ⟨?_, ?_⟩
  · exact (bit_matrix_to_ref_row_echelon gen_test_matrix hwf 1 2 1 0
      (by decide) (by decide)).1 ⟨by decide, by decide⟩ (by decide)
  · exact (bit_matrix_to_ref_row_echelon gen_test_matrix hwf 3 4 0 0
      (by decide) (by decide)).2 (by decide) (by decide)

/-! ## Step 2 of Dixon: the factor candidate (C6) -/

theorem hasKey_iff_mem_keys (f : Factorization) (p : Nat) :
    f.hasKey p = true ↔ p ∈ f.keys := by
  unfold Factorization.hasKey Factorization.keys
  rw [List.any_eq_true]
  constructor
  · rintro ⟨x, hx, hpx⟩
    have hxp : x.1 = p := by simpa using hpx
    rw [← hxp]
    exact List.mem_map_of_mem _ hx
  · intro hp
    obtain ⟨x, hx, hxp⟩ := List.mem_map.mp hp
    exact ⟨x, hx, by simp [hxp]⟩

theorem keys_mul (f g : Factorization) :
    (f.mul g).keys
      = f.keys ++ (g.entries.filter (fun q => ! f.hasKey q.1)).map
          (fun q => q.1) := by
  unfold Factorization.mul Factorization.keys
  dsimp only
  rw [List.map_append, List.map_map]
  have hcompkeys : ((fun q : Nat × Nat => q.1) ∘
      (fun q : Nat × Nat => (q.1, q.2 + g.get q.1)))
      = (fun q : Nat × Nat => q.1) := by
    funext q; rfl
  rw [hcompkeys]

theorem KeysNodup_one : Factorization.one.KeysNodup := List.nodup_nil

theorem KeysNodup_mul {f g : Factorization} (hf : f.KeysNodup)
    (hg : g.KeysNodup) : (f.mul g).KeysNodup := by
  unfold Factorization.KeysNodup at *
  rw [keys_mul, List.nodup_append]
  refine ⟨hf, ?_, ?_⟩
  · have hsub : List.Sublist
        ((g.entries.filter (fun q => ! f.hasKey q.1)).map (fun q => q.1))
        (g.entries.map (fun q => q.1)) := (List.filter_sublist _).map _
    exact List.Nodup.sublist hsub hg
  · intro a ha hamem
    obtain ⟨q, hq, hq1⟩ := List.mem_map.mp hamem
    have hqf : (! f.hasKey q.1) = true := (List.mem_filter.mp hq).2
    have hk : f.hasKey a = true := (hasKey_iff_mem_keys f a).mpr ha
    rw [show q.1 = a from hq1, hk] at hqf
    exact Bool.noConfusion hqf

theorem get_eq_zero_of_not_mem_keys (f : Factorization) (p : Nat)
    (h : p ∉ f.keys) : f.get p = 0 := by
  unfold Factorization.get
  have hnone : f.entries.find? (fun q => q.1 == p) = none := by
    rw [List.find?_eq_none]
    intro x hx hpx
    apply h
    have hxp : x.1 = p := by simpa using hpx
    rw [← hxp]
    exact List.mem_map_of_mem _ hx
  rw [hnone]
  rfl

theorem product_eq_prod_list :
    ∀ (l : List (Nat × Nat)) (S : Finset Nat),
      (l.map (fun q => q.1)).Nodup → (∀ k ∈ l.map (fun q => q.1), k ∈ S) →
      (Factorization.mk l).product
        = ∏ p ∈ S, p ^ ((Factorization.mk l).get p) := by
  intro l
  induction l with
  | nil =>
      intro S _ _
      have hone : ∀ p ∈ S, p ^ ((Factorization.mk []).get p) = 1 := by
        intro p _; rfl
      rw [Finset.prod_congr rfl hone, Finset.prod_const_one]
      rfl
  | cons a l ih =>
      intro S hnd hsub
      obtain ⟨k, e⟩ := a
      have hnd2 : (k :: l.map (fun q => q.1)).Nodup := by simpa using hnd
      have hknotin : k ∉ l.map (fun q => q.1) := (List.nodup_cons.mp hnd2).1
      have hkS : k ∈ S := hsub k (by simp)
      have hget_k : (Factorization.mk ((k, e) :: l)).get k = e := by
        unfold Factorization.get
        rw [List.find?_cons_of_pos _ (by simp)]
        rfl
      have hget_ne : ∀ p, p ≠ k →
          (Factorization.mk ((k, e) :: l)).get p
            = (Factorization.mk l).get p := by
        intro p hp
        unfold Factorization.get
        rw [List.find?_cons_of_neg _ (by simp [Ne.symm hp])]
      have hsub2 : ∀ p ∈ l.map (fun q => q.1), p ∈ S.erase k := by
        intro p hp
        refine Finset.mem_erase.mpr ⟨?_, hsub p (by simp [hp])⟩
        intro hpk
        exact hknotin (hpk ▸ hp)
      have hrec := ih (S.erase k) (List.nodup_cons.mp hnd2).2 hsub2
      have hprodc : (Factorization.mk ((k, e) :: l)).product
          = k ^ e * (Factorization.mk l).product := by
        unfold Factorization.product
        simp
      calc (Factorization.mk ((k, e) :: l)).product
          = k ^ e * (Factorization.mk l).product := hprodc
        _ = k ^ e * ∏ p ∈ S.erase k, p ^ ((Factorization.mk l).get p) := by
            rw [hrec]
        _ = k ^ ((Factorization.mk ((k, e) :: l)).get k) *
              ∏ p ∈ S.erase k, p ^ ((Factorization.mk ((k, e) :: l)).get p) := by
            rw [hget_k]
            congr 1
            refine Finset.prod_congr rfl ?_
            intro p hp
            rw [hget_ne p (Finset.mem_erase.mp hp).1]
        _ = ∏ p ∈ S, p ^ ((Factorization.mk ((k, e) :: l)).get p) :=
            Finset.mul_prod_erase S
              (fun p => p ^ ((Factorization.mk ((k, e) :: l)).get p)) hkS

theorem product_eq_prod (f : Factorization) (S : Finset Nat)
    (hf : f.KeysNodup) (hS : ∀ k ∈ f.keys, k ∈ S) :
    f.product = ∏ p ∈ S, p ^ f.get p := by
  obtain ⟨l⟩ := f
  exact product_eq_prod_list l S hf hS

theorem product_mul {f g : Factorization} (hf : f.KeysNodup)
    (hg : g.KeysNodup) : (f.mul g).product = f.product * g.product := by
  have hmulnd := KeysNodup_mul hf hg
  set S := ((f.mul g).keys).toFinset with hS
  have h1 : (f.mul g).product = ∏ p ∈ S, p ^ ((f.mul g).get p) :=
    product_eq_prod _ S hmulnd (fun k hk => List.mem_toFinset.mpr hk)
  have hfS : ∀ k ∈ f.keys, k ∈ S := by
    intro k hk
    apply List.mem_toFinset.mpr
    rw [keys_mul]
    exact List.mem_append_left _ hk
  have hgS : ∀ k ∈ g.keys, k ∈ S := by
    intro k hk
    apply List.mem_toFinset.mpr
    rw [keys_mul]
    cases hkf : f.hasKey k
    · apply List.mem_append_right
      obtain ⟨q, hq, hq1⟩ := List.mem_map.mp hk
      apply List.mem_map.mpr
      refine ⟨q, ?_, hq1⟩
      apply List.mem_filter.mpr
      refine ⟨hq, ?_⟩
      rw [show q.1 = k from hq1, hkf]
      rfl
    · exact List.mem_append_left _ ((hasKey_iff_mem_keys f k).mp hkf)
  rw [h1]
  have h2 : ∀ p ∈ S, p ^ ((f.mul g).get p) = p ^ (f.get p) * p ^ (g.get p) := by
    intro p _
    rw [Factorization.get_mul, pow_add]
  rw [Finset.prod_congr rfl h2, Finset.prod_mul_distrib,
    ← product_eq_prod f S hf hfS, ← product_eq_prod g S hg hgS]

theorem sqrt_product_list :
    ∀ (l : List (Nat × Nat)), (∀ q ∈ l, q.2 % 2 = 0) →
      ((l.map (fun q => (q.1, q.2 / 2))).map (fun q => q.1 ^ q.2)).prod *
      ((l.map (fun q => (q.1, q.2 / 2))).map (fun q => q.1 ^ q.2)).prod
        = (l.map (fun q => q.1 ^ q.2)).prod := by
  intro l
  induction l with
  | nil => intro _; rfl
  | cons a l ih =>
      intro hall
      simp only [List.map_cons, List.prod_cons]
      have ha := hall a (List.mem_cons_self a l)
      have hih := ih (fun q hq => hall q (List.mem_cons_of_mem a hq))
      have hhead : a.1 ^ (a.2 / 2) * a.1 ^ (a.2 / 2) = a.1 ^ a.2 := by
        rw [← pow_add]
        congr 1
        omega
      calc (a.1 ^ (a.2 / 2) * ((l.map (fun q => (q.1, q.2 / 2))).map
              (fun q => q.1 ^ q.2)).prod) *
            (a.1 ^ (a.2 / 2) * ((l.map (fun q => (q.1, q.2 / 2))).map
              (fun q => q.1 ^ q.2)).prod)
          = (a.1 ^ (a.2 / 2) * a.1 ^ (a.2 / 2)) *
            (((l.map (fun q => (q.1, q.2 / 2))).map (fun q => q.1 ^ q.2)).prod *
             ((l.map (fun q => (q.1, q.2 / 2))).map (fun q => q.1 ^ q.2)).prod) := by
            ring
        _ = a.1 ^ a.2 * (l.map (fun q => q.1 ^ q.2)).prod := by rw [hhead, hih]

theorem sqrt_product {f sf : Factorization} (h : f.sqrt = some sf) :
    sf.product * sf.product = f.product := by
  unfold Factorization.sqrt at h
  split at h
  · rename_i hall
    have hsf : sf = ⟨f.entries.map (fun q => (q.1, q.2 / 2))⟩ := by
      injection h with h2
      exact h2.symm
    subst hsf
    have hall2 : ∀ q ∈ f.entries, q.2 % 2 = 0 := by
      rw [List.all_eq_true] at hall
      intro q hq
      simpa using hall q hq
    exact sqrt_product_list f.entries hall2
  · exact Option.noConfusion h

theorem foldl_mul_KeysNodup (h : Nat → Factorization) :
    ∀ (L : List Nat) (acc : Factorization), acc.KeysNodup →
      (∀ i ∈ L, (h i).KeysNodup) →
      (L.foldl (fun a i => a.mul (h i)) acc).KeysNodup := by
  intro L
  induction L with
  | nil => intro acc ha _; exact ha
  | cons i L ih =>
      intro acc ha hL
      simp only [List.foldl_cons]
      exact ih _ (KeysNodup_mul ha (hL i (List.mem_cons_self i L)))
        (fun j hj => hL j (List.mem_cons_of_mem i hj))

theorem foldl_mul_product (h : Nat → Factorization) :
    ∀ (L : List Nat) (acc : Factorization), acc.KeysNodup →
      (∀ i ∈ L, (h i).KeysNodup) →
      (L.foldl (fun a i => a.mul (h i)) acc).product
        = acc.product * (L.map (fun i => (h i).product)).prod := by
  intro L
  induction L with
  | nil => intro acc _ _; simp
  | cons i L ih =>
      intro acc ha hL
      simp only [List.foldl_cons, List.map_cons, List.prod_cons]
      rw [ih _ (KeysNodup_mul ha (hL i (List.mem_cons_self i L)))
        (fun j hj => hL j (List.mem_cons_of_mem i hj)),
        product_mul ha (hL i (List.mem_cons_self i L))]
      ring

theorem foldl_mul_eq_prod :
    ∀ (L : List Nat) (f : Nat → Nat) (a : Nat),
      L.foldl (fun acc i => acc * f i) a = a * (L.map f).prod := by
  intro L
  induction L with
  | nil => intro f a; simp
  | cons i L ih =>
      intro f a
      simp only [List.foldl_cons, List.map_cons, List.prod_cons]
      rw [ih]
      ring

theorem prod_map_le_prod_map (f g : Nat → Nat) :
    ∀ (L : List Nat), (∀ i ∈ L, f i ≤ g i) →
      (L.map f).prod ≤ (L.map g).prod := by
  intro L
  induction L with
  | nil => intro _; exact le_rfl
  | cons i L ih =>
      intro hle
      simp only [List.map_cons, List.prod_cons]
      exact Nat.mul_le_mul (hle i (List.mem_cons_self i L))
        (ih (fun j hj => hle j (List.mem_cons_of_mem i hj)))

/-- C6: for every all-zero row with index set `S` (given the Step 1 facts
that each recorded b-factorization has unique keys and reconstructs to
`a*a mod x`, and that the square root of the combined factorization
succeeds), the subtraction `a_prod - b_sqrt` in the candidate never goes
below zero, and the candidate `gcd(a_prod - b_sqrt, x)` the code computes
equals `gcd((x + a_prod - b_sqrt) mod x, x)`. -/
theorem dixon_candidate_mod_form (x : Nat) (avals : List Nat)
    (bfacts : List Factorization) (S : Finset Nat) (sf : Factorization)
    (hx : 1 ≤ x)
    (hnd : ∀ i ∈ S, (bfacts.getD i Factorization.one).KeysNodup)
    (hprod : ∀ i ∈ S, (bfacts.getD i Factorization.one).product
        = (avals.getD i 1) * (avals.getD i 1) % x)
    (hsqrt : (dixon_b_prod bfacts S).sqrt = some sf) :
    sf.product ≤ dixon_a_prod avals S ∧
    dixon_candidate x avals bfacts S
      = gcd ((x + dixon_a_prod avals S - sf.product) % x) x := by
  have hsq := sqrt_product hsqrt
  have hble : sf.product * sf.product
      ≤ (dixon_a_prod avals S) * (dixon_a_prod avals S) := by
    rw [hsq]
    have hbp : (dixon_b_prod bfacts S).product
        = ((S.sort (· ≤ ·)).map
            (fun i => (bfacts.getD i Factorization.one).product)).prod := by
      unfold dixon_b_prod
      rw [foldl_mul_product (fun i => bfacts.getD i Factorization.one)
        (S.sort (· ≤ ·)) Factorization.one KeysNodup_one
        (fun i hi => hnd i ((Finset.mem_sort _).mp hi))]
      simp [Factorization.product, Factorization.one]
    have hap : dixon_a_prod avals S
        = ((S.sort (· ≤ ·)).map (fun i => avals.getD i 1)).prod := by
      unfold dixon_a_prod
      rw [foldl_mul_eq_prod]
      ring
    rw [hbp, hap, ← List.prod_map_mul]
    refine prod_map_le_prod_map _ _ _ ?_
    intro i hi
    rw [hprod i ((Finset.mem_sort _).mp hi)]
    exact Nat.mod_le _ _
  have hle : sf.product ≤ dixon_a_prod avals S := by
    by_contra hgt
    have := Nat.mul_self_lt_mul_self (Nat.lt_of_not_le hgt)
    omega
  refine ⟨hle, ?_⟩
  have hcand : dixon_candidate x avals bfacts S
      = gcd (dixon_a_prod avals S - sf.product) x := by
    unfold dixon_candidate
    rw [hsqrt]
  rw [hcand]
  have h1 : x + dixon_a_prod avals S - sf.product
      = x + (dixon_a_prod avals S - sf.product) := by omega
  rw [h1, Nat.add_mod_left]
  unfold gcd
  rw [Nat.gcd_comm (dixon_a_prod avals S - sf.product) x, Nat.gcd_rec]

/-- C6 witness: `x = 15`, `S = {0}`, `a` value `4` with a trivial
b-factorization (`16 mod 15 = 1`): `b_sqrt = 1 ≤ 4 = a_prod` and the
candidate equals the mod form. -/
theorem dixon_candidate_mod_form_witness :
    Factorization.one.product ≤ dixon_a_prod [4] {0} ∧
    dixon_candidate 15 [4] [Factorization.one] {0}
      = gcd ((15 + dixon_a_prod [4] {0} - Factorization.one.product) % 15)
          15 := by
  have hsort : ({0} : Finset Nat).sort (· ≤ ·) = [0] :=
    Finset.sort_singleton (· ≤ ·) 0
  have hsqrt : (dixon_b_prod [Factorization.one] {0}).sqrt
      = some Factorization.one := by
    unfold dixon_b_prod
    rw [hsort]
    rfl
  refine dixon_candidate_mod_form 15 [4] [Factorization.one] {0}
    Factorization.one (by decide) ?_ ?_ hsqrt
  · intro i hi
    have hi0 : i = 0 := by simpa using hi
    subst hi0
    exact KeysNodup_one
  · intro i hi
    have hi0 : i = 0 := by simpa using hi
    subst hi0
    rfl

end RustFactor
